import Mathlib

/-!
# Verification of the Theseus problem-graph bookkeeping and GBP optimizer

Shallow embedding of the core of `theseus/core/objective.py` (the `Objective`
problem graph) and `theseus/optimizer/gbp/gbp.py` (Gaussian Belief Propagation:
Gaussian-on-manifold transforms, factor message computation, message passes,
convergence check), together with theorems settling the specification claims.

Python dictionaries (`OrderedDict`) are modelled as insertion-ordered
association lists; Python object identity is modelled with explicit numeric
identity fields (`vid`, `cfid`, `wid`); `raise` is modelled with `Except`;
torch tensors whose numeric content is irrelevant to a claim are modelled as a
shape plus an opaque payload; real scalars and matrix entries are modelled
as rationals.
-/

namespace Theseus

open scoped Matrix

/-! ## Association lists (model of Python OrderedDict)

`aget` is dictionary lookup, `aset` is `d[k] = v` (overwrites in place,
appends at the end when the key is new, like an OrderedDict), `aremove` is
`del d[k]`, `aupdate` rewrites the value at an existing key. -/

def aget {α β : Type} [DecidableEq α] : List (α × β) → α → Option β
  | [], _ => none
  | (k, v) :: rest, key => if key = k then some v else aget rest key

def aset {α β : Type} [DecidableEq α] : List (α × β) → α → β → List (α × β)
  | [], key, val => [(key, val)]
  | (k, v) :: rest, key, val =>
      if key = k then (k, val) :: rest else (k, v) :: aset rest key val

def aremove {α β : Type} [DecidableEq α] : List (α × β) → α → List (α × β)
  | [], _ => []
  | (k, v) :: rest, key => if key = k then rest else (k, v) :: aremove rest key

def aupdate {α β : Type} [DecidableEq α]
    (d : List (α × β)) (key : α) (f : β → β) : List (α × β) :=
  match aget d key with
  | none => d
  | some v => aset d key (f v)

/-! ## Tensors and variables

A torch tensor is modelled by its shape and an opaque integer payload
standing for its numeric contents; two tensors are equal exactly when both
agree.  `Var` models `theseus.core.Variable`: `vid` is Python object
identity, `name` is the (optional) variable name, `dtype` an abstract dtype
tag, and `numUpdates` the update counter maintained by `Variable.update`. -/

structure Tensor where
  shape : List Nat
  val : Int
  deriving DecidableEq, Repr

def Tensor.ndim (t : Tensor) : Nat := t.shape.length

/-- Leading (batch) dimension, `tensor.shape[0]`. -/
def Tensor.batchDim (t : Tensor) : Nat := t.shape.headD 0

structure Var where
  vid : Nat
  name : Option String
  dtype : Nat
  tensor : Tensor
  numUpdates : Nat
  deriving DecidableEq, Repr

/-- Python uses `variable.name` as a dictionary key; variables reaching that
code are always named (unnamed ones are rejected on `add`). -/
def Var.nameD (v : Var) : String := v.name.getD ""

/-- `Variable.update(tensor)`: replaces the data and bumps the update
counter (the `batch_ignore_mask=None` path used by `Objective.update`). -/
def Var.updateTensor (v : Var) (t : Tensor) : Var :=
  { v with tensor := t, numUpdates := v.numUpdates + 1 }

/-! ## Cost weights and cost functions

`CostWeight` and `CostFunction` are external capability objects: the graph
only reads their variable lists, name and identity.  `werr` models
`CostFunction.weighted_error()` as a function of the current tensors of the
cost function variables (optimization variables first, then auxiliary),
returning the rows of a `(batch x dim)` error tensor flattened to a list. -/

structure Weight where
  wid : Nat
  optimVars : List Var
  auxVars : List Var

structure CF where
  cfid : Nat
  name : String
  optimVars : List Var
  auxVars : List Var
  weight : Weight
  werr : List Tensor → List ℚ

/-- A `TheseusFunction` reference as stored in the variable-to-function
adjacency lists: either a cost function or a cost weight, by identity. -/
inductive FnRef where
  | cf (id : Nat)
  | cw (id : Nat)
  deriving DecidableEq, Repr

/-! ## The problem graph state (`Objective`)

Mirrors the containers of `Objective.__init__`.  Python stores variable
*objects*; since a mutable object is its identity plus current state, the
model keeps one canonical store `varStore : vid -> current Var record` and
lets every dictionary hold `vid`s (for the object-keyed dictionaries
`functions_for_optim_vars` / `functions_for_aux_vars`) or `name -> vid`
entries (for the name-keyed dictionaries). `cfsForWeights` is keyed by the
weight identity and holds the identities of the cost functions using the
weight.  Vectorization hooks are not modelled (they stay at their default,
disabled, values throughout the code under study). -/

structure ObjState where
  varStore : List (Nat × Var)
  optimVars : List (String × Nat)
  cwOptimVars : List (String × Nat)
  auxVars : List (String × Nat)
  allVariables : List (String × Nat)
  costFunctions : List (String × CF)
  cfsForWeights : List (Nat × List Nat)
  fnsForOptimVars : List (Nat × List FnRef)
  fnsForAuxVars : List (Nat × List FnRef)
  batchSize : Option Nat
  version : Nat
  dtype : Nat
  allowMixed : Bool

/-- A fresh objective (`Objective.__init__`). -/
def ObjState.empty (dtype : Nat) : ObjState :=
  { varStore := [], optimVars := [], cwOptimVars := [], auxVars := []
    allVariables := [], costFunctions := [], cfsForWeights := []
    fnsForOptimVars := [], fnsForAuxVars := [], batchSize := none
    version := 0, dtype := dtype, allowMixed := false }

def ObjState.hasOptimVar (st : ObjState) (name : String) : Bool :=
  (aget st.optimVars name).isSome

def ObjState.hasAuxVar (st : ObjState) (name : String) : Bool :=
  (aget st.auxVars name).isSome

/-- Current record of a variable object (lookup in the canonical store). -/
def ObjState.getVar (st : ObjState) (vid : Nat) : Option Var :=
  aget st.varStore vid

/-! ## Batch size resolution (`Objective._resolve_batch_size`) -/

/-- The inner `_get_batch_size` helper: a single distinct value resolves to
it; exactly two distinct values resolve to the larger when the smaller is 1;
anything else raises. -/
def getBatchSize (batchSizes : List Nat) : Except String Nat :=
  match batchSizes.dedup with
  | [_] => .ok (batchSizes.headD 0)
  | [a, b] =>
      if min a b = 1 then .ok (max a b)
      else .error "Provided tensors must be broadcastable."
  | _ => .error "Provided tensors must be broadcastable."

/-- The leading dimensions collected by `_resolve_batch_size`: optimization
variables first, then auxiliary variables, in dictionary order. -/
def ObjState.varBatchDims (st : ObjState) : List Nat :=
  (st.optimVars.map fun p =>
      ((st.getVar p.2).map Var.tensor).getD ⟨[], 0⟩ |>.batchDim) ++
  (st.auxVars.map fun p =>
      ((st.getVar p.2).map Var.tensor).getD ⟨[], 0⟩ |>.batchDim)

/-- `Objective._resolve_batch_size`. -/
def ObjState.resolveBatchSize (st : ObjState) : Except String ObjState :=
  match getBatchSize st.varBatchDims with
  | .ok n => .ok { st with batchSize := some n }
  | .error e => .error e

/-! ## Registering variables (`Objective._add_function_variables`)

`optimFlag` selects optimization vs auxiliary variables; `isCW` selects the
`cost_weight_optim_vars` side table instead of `optim_vars`.  Errors model
`raise`; the Python `KeyError` that an adjacency append on a missing key
would produce is modelled as an error as well. -/

def ObjState.addVarStep (optimFlag isCW : Bool) (fn : FnRef)
    (st : ObjState) (v : Var) : Except String ObjState :=
  match v.name with
  | none => .error "Variables added to an objective must be named."
  | some name =>
    if v.dtype = st.dtype then
      -- Check that names are unique (same name must be the same object)
      let checkRes : Except String ObjState :=
        match aget st.allVariables name with
        | some storedVid =>
            if storedVid = v.vid then .ok st
            else
              .error "Two different variable objects with the same name are not allowed in the same objective."
        | none =>
            let st := { st with
              allVariables := aset st.allVariables name v.vid,
              varStore := aset st.varStore v.vid v }
            .ok (if optimFlag then
                  { st with fnsForOptimVars := aset st.fnsForOptimVars v.vid [] }
                 else
                  { st with fnsForAuxVars := aset st.fnsForAuxVars v.vid [] })
      checkRes >>= fun st =>
        -- add to either optim_vars, cost_weight_optim_vars or aux_vars
        let st :=
          if optimFlag then
            if isCW then { st with cwOptimVars := aset st.cwOptimVars name v.vid }
            else { st with optimVars := aset st.optimVars name v.vid }
          else { st with auxVars := aset st.auxVars name v.vid }
        -- relaxed mode: make sure the adjacency entry exists
        let st :=
          if st.allowMixed then
            if optimFlag then
              if (aget st.fnsForOptimVars v.vid).isNone then
                { st with fnsForOptimVars := aset st.fnsForOptimVars v.vid [] }
              else st
            else
              if (aget st.fnsForAuxVars v.vid).isNone then
                { st with fnsForAuxVars := aset st.fnsForAuxVars v.vid [] }
              else st
          else st
        -- add to the list of functions connected to this variable
        if optimFlag then
          match aget st.fnsForOptimVars v.vid with
          | none => .error "KeyError"
          | some fns =>
              .ok { st with fnsForOptimVars := aset st.fnsForOptimVars v.vid (fns ++ [fn]) }
        else
          match aget st.fnsForAuxVars v.vid with
          | none => .error "KeyError"
          | some fns =>
              .ok { st with fnsForAuxVars := aset st.fnsForAuxVars v.vid (fns ++ [fn]) }
    else .error "Tried to add variable with a dtype different from the objective dtype."

/-- The loop of `_add_function_variables` over the function variable list. -/
def ObjState.addFnVars (optimFlag isCW : Bool) (fn : FnRef)
    (st : ObjState) : List Var → Except String ObjState
  | [] => .ok st
  | v :: rest =>
    st.addVarStep optimFlag isCW fn v >>= fun st' =>
      st'.addFnVars optimFlag isCW fn rest

/-! ## Adding a cost function (`Objective.add`) -/

def ObjState.addCF (st : ObjState) (cf : CF) : Except String ObjState :=
  -- adds the cost function if not already present
  let step1 : Except String ObjState :=
    match aget st.costFunctions cf.name with
    | some stored =>
        if stored.cfid = cf.cfid then
          .ok st  -- warns: already added, nothing to be done
        else
          .error "Two different cost function objects with the same name are not allowed in the same objective."
    | none => .ok { st with costFunctions := st.costFunctions ++ [(cf.name, cf)] }
  step1 >>= fun st =>
  let st := { st with version := st.version + 1 }
  -- book-keeping for the optimization variables of the cost function
  st.addFnVars true false (.cf cf.cfid) cf.optimVars >>= fun st =>
  -- book-keeping for the auxiliary variables of the cost function
  st.addFnVars false false (.cf cf.cfid) cf.auxVars >>= fun st =>
  -- book-keeping for the cost weight (only once per distinct weight object)
  (if (aget st.cfsForWeights cf.weight.wid).isNone then
      st.addFnVars true true (.cw cf.weight.wid) cf.weight.optimVars >>= fun st =>
      st.addFnVars false true (.cw cf.weight.wid) cf.weight.auxVars >>= fun st =>
      let st := { st with cfsForWeights := aset st.cfsForWeights cf.weight.wid [] }
      if cf.weight.optimVars.length > 0 then
        .error "The cost weight receives one or more optimization variables; differentiating cost weights is not supported."
      else .ok st
   else .ok st) >>= fun st =>
  let st := { st with
    cfsForWeights := aupdate st.cfsForWeights cf.weight.wid (· ++ [cf.cfid]) }
  -- a variable cannot be both an optimization and an auxiliary variable
  let optimNames := (cf.optimVars ++ cf.weight.optimVars).map Var.nameD
  let auxNames := (cf.auxVars ++ cf.weight.auxVars).map Var.nameD
  if st.allowMixed then .ok st
  else if optimNames.any st.hasAuxVar ∨ auxNames.any st.hasOptimVar then
    .error "Objective does not support a variable being both an optimization variable and an auxiliary variable."
  else .ok st

/-! ## Erasing a cost function (`Objective.erase`) -/

/-- Remove the first occurrence of an element from a list
(Python `list.index` followed by `del lst[idx]`). -/
def removeFirst {α : Type} [DecidableEq α] : List α → α → List α
  | [], _ => []
  | x :: rest, y => if x = y then rest else x :: removeFirst rest y

/-- One variable of `_erase_function_variables`: drop the function from the
variable adjacency list and, when that list becomes empty, delete both the
adjacency entry and the variable registration. -/
def ObjState.eraseVarStep (optimFlag isCW : Bool) (fn : FnRef)
    (st : ObjState) (v : Var) : Except String ObjState :=
  let adj := if optimFlag then st.fnsForOptimVars else st.fnsForAuxVars
  match aget adj v.vid with
  | none => .error "KeyError"
  | some fns =>
    if fn ∈ fns then
      let fns' := removeFirst fns fn
      if fns' = [] then
        -- variable no longer connected to any function: remove it as well
        let st :=
          if optimFlag then { st with fnsForOptimVars := aremove st.fnsForOptimVars v.vid }
          else { st with fnsForAuxVars := aremove st.fnsForAuxVars v.vid }
        .ok (if optimFlag then
              if isCW then { st with cwOptimVars := aremove st.cwOptimVars v.nameD }
              else { st with optimVars := aremove st.optimVars v.nameD }
             else { st with auxVars := aremove st.auxVars v.nameD })
      else
        .ok (if optimFlag then
              { st with fnsForOptimVars := aset st.fnsForOptimVars v.vid fns' }
             else
              { st with fnsForAuxVars := aset st.fnsForAuxVars v.vid fns' })
    else .error "ValueError: function not in adjacency list"

/-- The loop of `_erase_function_variables` over the function variable list. -/
def ObjState.eraseFnVars (optimFlag isCW : Bool) (fn : FnRef)
    (st : ObjState) : List Var → Except String ObjState
  | [] => .ok st
  | v :: rest =>
    st.eraseVarStep optimFlag isCW fn v >>= fun st' =>
      st'.eraseFnVars optimFlag isCW fn rest

def ObjState.eraseCF (st : ObjState) (name : String) : Except String ObjState :=
  let st := { st with version := st.version + 1 }
  match aget st.costFunctions name with
  | none => .ok st  -- warns: not in the objective, nothing to be done
  | some cf =>
    st.eraseFnVars true false (.cf cf.cfid) cf.optimVars >>= fun st =>
    st.eraseFnVars false false (.cf cf.cfid) cf.auxVars >>= fun st =>
    -- delete the cost function from the list attached to its weight
    match aget st.cfsForWeights cf.weight.wid with
    | none => .error "KeyError"
    | some wcfs =>
      if cf.cfid ∈ wcfs then
        let wcfs' := removeFirst wcfs cf.cfid
        let st := { st with cfsForWeights := aset st.cfsForWeights cf.weight.wid wcfs' }
        -- no more cost functions use this weight: erase its variables too
        (if wcfs' = [] then
            st.eraseFnVars true true (.cw cf.weight.wid) cf.weight.optimVars >>= fun st =>
            st.eraseFnVars false true (.cw cf.weight.wid) cf.weight.auxVars >>= fun st =>
            .ok { st with cfsForWeights := aremove st.cfsForWeights cf.weight.wid }
         else .ok st) >>= fun st =>
        .ok { st with costFunctions := aremove st.costFunctions name }
      else .error "ValueError: cost function not in weight list"

/-! ## Updating variables (`Objective.update`) -/

/-- One entry of the `input_tensors` dictionary. -/
def ObjState.updateVarStep (st : ObjState) (name : String) (t : Tensor) :
    Except String ObjState :=
  if t.ndim < 2 then
    .error "Input tensors must have a batch dimension and one or more data dimensions."
  else
    match aget st.optimVars name with
    | some vid => .ok { st with varStore := aupdate st.varStore vid (·.updateTensor t) }
    | none =>
      match aget st.auxVars name with
      | some vid => .ok { st with varStore := aupdate st.varStore vid (·.updateTensor t) }
      | none =>
        match aget st.cwOptimVars name with
        | some vid =>
            -- warns: variable only associated to cost weights
            .ok { st with varStore := aupdate st.varStore vid (·.updateTensor t) }
        | none => .ok st  -- warns: name not associated to any variable

def ObjState.updateLoop (st : ObjState) : List (String × Tensor) → Except String ObjState
  | [] => .ok st
  | (name, t) :: rest =>
    st.updateVarStep name t >>= fun st' => st'.updateLoop rest

/-- `Objective.update` (with `batch_ignore_mask=None`; vectorization hooks
are disabled): write every input tensor into its variable, then resolve the
batch size. -/
def ObjState.update (st : ObjState) (inputTensors : List (String × Tensor)) :
    Except String ObjState :=
  st.updateLoop inputTensors >>= fun st' => st'.resolveBatchSize

/-! ## Error evaluation (`Objective.error`) -/

/-- The tensors currently held by the variables of a cost function
(optimization variables first, then auxiliary variables), read from the
canonical store. -/
def ObjState.cfTensors (st : ObjState) (cf : CF) : List Tensor :=
  (cf.optimVars ++ cf.auxVars).map fun v =>
    ((st.getVar v.vid).map Var.tensor).getD v.tensor

/-- Concatenation of every cost function weighted error, in registration
order (`torch.cat([cf.weighted_error() for cf in ...], dim=1)`). -/
def ObjState.errorVector (st : ObjState) : List ℚ :=
  st.costFunctions.flatMap fun p => p.2.werr (st.cfTensors p.2)

/-- `Objective.error`: optionally updates variables from `inputTensors`;
when `alsoUpdate` is false the *optimization* variables are saved before the
update and written back afterwards. -/
def ObjState.error (st : ObjState) (inputTensors : Option (List (String × Tensor)))
    (alsoUpdate : Bool) : Except String (List ℚ × ObjState) :=
  match inputTensors with
  | none => .ok (st.errorVector, st)
  | some inp =>
    -- old_tensors: saved for optimization variables only
    let oldTensors : List (String × Tensor) :=
      if ¬ alsoUpdate then
        st.optimVars.map fun p =>
          (p.1, ((st.getVar p.2).map Var.tensor).getD ⟨[], 0⟩)
      else []
    st.update inp >>= fun st1 =>
      let errVec := st1.errorVector
      if alsoUpdate then .ok (errVec, st1)
      else
        st1.update oldTensors >>= fun st2 => .ok (errVec, st2)

/-! ## Convergence check (`GaussianBeliefPropagation._check_convergence`) -/

/-- Modelled from the spec: `theseus.constants.EPS`, the small positive
constant used by the convergence check; `theseus/constants.py` is not among
the sources under study, so the customary value 1e-10 is used.  None of the
theorems below depends on its exact value, only on its positivity. -/
def EPS : ℚ := 1 / 10 ^ 10

/-- `_check_convergence(err, last_err)`: if the batch mean of `|err|` is
below `EPS`, every element is reported converged; otherwise element `i` is
converged when `|last_err_i - err_i| < abs_err_tolerance` or
`(last_err_i - err_i).abs / last_err_i < rel_err_tolerance`.  In torch a
division by zero yields `inf`/`nan`, both of which compare false against the
tolerance; the zero-denominator guard reproduces that. -/
def checkConvergence (absTol relTol : ℚ) (err lastErr : List ℚ) : List Bool :=
  if (err.map abs).sum / (err.length : ℚ) < EPS then
    List.replicate err.length true
  else
    List.zipWith (fun e l =>
      let absError := |l - e|
      decide (absError < absTol) ||
        (decide (l ≠ 0) && decide (absError / l < relTol))) err lastErr

/-- The per-element convergence rule exactly as the claim states it:
element `i` converges when `|err_i| < EPS`, or `|prevErr_i - err_i| <
absTol`, or `|prevErr_i - err_i| / |prevErr_i| < relTol`. -/
def claimConverged (absTol relTol : ℚ) (e l : ℚ) : Bool :=
  decide (|e| < EPS) || decide (|l - e| < absTol) || decide (|l - e| / |l| < relTol)

/-! ## Executable linear algebra

`torch.inverse` / `np.linalg.inv` are modelled by the adjugate formula over
`Matrix (Fin n) (Fin n) ℚ`; `detQ`/`adjQ` are executable versions of
`Matrix.det`/`Matrix.adjugate` (proved equal to them below), so that the
definition both runs on concrete inputs and enjoys the Mathlib inverse
lemmas. -/

def detQ : (n : ℕ) → Matrix (Fin n) (Fin n) ℚ → ℚ
  | 0, _ => 1
  | n + 1, A =>
      ∑ j : Fin (n + 1), (-1) ^ (j : ℕ) * A 0 j * detQ n (A.submatrix Fin.succ j.succAbove)

def adjQ {n : ℕ} (A : Matrix (Fin n) (Fin n) ℚ) : Matrix (Fin n) (Fin n) ℚ :=
  fun i j => detQ n (A.updateRow j (Pi.single i 1))

/-- `torch.inverse` (gbp.py applies it only to matrices it expects to be
invertible; on a singular matrix torch raises while this model returns the
zero matrix, a case no claim exercises). -/
def torchInverse {n : ℕ} (A : Matrix (Fin n) (Fin n) ℚ) : Matrix (Fin n) (Fin n) ℚ :=
  (detQ n A)⁻¹ • adjQ A

/-! ## Manifold capability contract and Gaussian-on-manifold transforms

The GBP code consumes manifold-valued variables only through `local`,
`retract`, the exponential-map jacobian (`th.exp_map`), `copy` and raw data
access.  `ManifoldOps P d` packages those capabilities for a point type `P`
with `d` degrees of freedom; gbp.py duck-types over several such types, the
embedding fixes one per problem.  A batched variable is a `List P` (one
entry per batch element). -/

structure ManifoldOps (P : Type) (d : ℕ) where
  /-- `v.local(m)`: the tangent-space displacement of `m` at `v`. -/
  localTo : P → P → (Fin d → ℚ)
  /-- `v.retract(t)`. -/
  retractTo : P → (Fin d → ℚ) → P
  /-- jacobian of the exponential map at tangent vector `t` (`th.exp_map`). -/
  expJac : (Fin d → ℚ) → Matrix (Fin d) (Fin d) ℚ
  /-- the zero-data point (`var.data[:] = 0`). -/
  zeroP : P
  /-- raw data of a point as a flat vector (`var.data`), used only by the
  non-Lie branch of factor linearization. -/
  dataVec : P → (Fin d → ℚ)

/-- `ManifoldGaussian` with a single mean variable, as used for every
`Message`/`Marginal` in gbp.py: a batched manifold mean and a batched
tangent-space precision matrix. -/
structure MGauss (P : Type) (d : ℕ) where
  mean : List P
  precision : List (Matrix (Fin d) (Fin d) ℚ)

/-- `local_gaussian(mess, var, return_mean)`: transform a Gaussian to the
tangent plane at `var`; returns `(mean_tp, lam_tp)` when `returnMean` and
`(eta_tp, lam_tp)` otherwise (batched). -/
def localGaussian {P : Type} {d : ℕ} (ops : ManifoldOps P d)
    (mess : MGauss P d) (var : List P) (returnMean : Bool) :
    List (Fin d → ℚ) × List (Matrix (Fin d) (Fin d) ℚ) :=
  let meanTp := List.zipWith ops.localTo var mess.mean
  let jac := meanTp.map ops.expJac
  let lamTp := List.zipWith (fun J lam => Jᵀ * lam * J) jac mess.precision
  if returnMean then (meanTp, lamTp)
  else (List.zipWith (fun lam mt => lam.mulVec mt) lamTp meanTp, lamTp)

/-- `retract_gaussian(mean_tp, precision_tp, var, out_gauss)`: transform a
tangent-plane Gaussian at `var` back to a Gaussian with group-element mean;
the in-place update of `out_gauss` is modelled by returning the new
Gaussian. -/
def retractGaussian {P : Type} {d : ℕ} (ops : ManifoldOps P d)
    (meanTp : List (Fin d → ℚ)) (precisionTp : List (Matrix (Fin d) (Fin d) ℚ))
    (var : List P) : MGauss P d :=
  let mean := List.zipWith ops.retractTo var meanTp
  let jac := meanTp.map ops.expJac
  let invJac := jac.map torchInverse
  let precision := List.zipWith (fun (iJ : Matrix (Fin d) (Fin d) ℚ) lam =>
    iJᵀ * lam * iJ) invJac precisionTp
  ⟨mean, precision⟩

/-! ## Factors (`Factor` in gbp.py)

The embedding fixes a single manifold type for all `k` variables attached
to a factor (gbp.py duck-types over mixed types; no claim depends on
mixing), so each variable has `d` degrees of freedom and the factor
potential lives on `Fin (k * d)`.  `CFCap` carries what the factor reads
from its cost function: the current (batched) variable values and the value
of `weighted_jacobians_error()` at those values. -/

structure GFactor (P : Type) (d k : ℕ) where
  potentialEta : List (Fin (k * d) → ℚ)
  potentialLam : List (Matrix (Fin (k * d)) (Fin (k * d)) ℚ)
  linPoint : List (List P)

structure CFCap (P : Type) (d e k : ℕ) where
  /-- `cf.optim_vars` current values: `k` variables, each batched. -/
  vals : List (List P)
  /-- weighted jacobians: one batched `(e x d)` jacobian per variable. -/
  jac : List (List (Matrix (Fin e) (Fin d) ℚ))
  /-- batched weighted error. -/
  errv : List (Fin e → ℚ)

/-- Horizontal concatenation `torch.cat(J, dim=-1)` of the `k` per-variable
jacobians of one batch element. -/
def hcatJac {d e k : ℕ} (Js : List (Matrix (Fin e) (Fin d) ℚ)) :
    Matrix (Fin e) (Fin (k * d)) ℚ :=
  fun r j => (Js.getD (j.divNat : Fin k) 0) r j.modNat

/-- Concatenation `torch.cat([v.data for v in optim_vars], dim=-1)` of one
batch element of the raw variable data. -/
def catData {P : Type} {d k : ℕ} (ops : ManifoldOps P d)
    (vals : List (List P)) (b : ℕ) : Fin (k * d) → ℚ :=
  fun j => ops.dataVec ((vals.getD (j.divNat : Fin k) []).getD b ops.zeroP) j.modNat

/-- `Factor.linearize` on the always-relinearize path
(`relin_threshold=None`, which is how `_pass_fac_to_var_messages` calls it;
the threshold branch compares tangent-space distances against the threshold
and otherwise leaves the factor unchanged).  Computes weighted jacobians and
error, forms `lam = J^T J` and `eta = -J^T err` (re-centered through the raw
variable data when `lie=False`), and moves the stored linearization point to
the current values. -/
def GFactor.linearize {P : Type} {d e k : ℕ} (ops : ManifoldOps P d)
    (_fac : GFactor P d k) (cf : CFCap P d e k) (lie : Bool) : GFactor P d k :=
  let B := cf.errv.length
  let Jstk : List (Matrix (Fin e) (Fin (k * d)) ℚ) :=
    (List.range B).map fun b => hcatJac (cf.jac.map (fun Ji => Ji.getD b 0))
  let lam := Jstk.map (fun M => Mᵀ * M)
  let eta0 := List.zipWith (fun (M : Matrix (Fin e) (Fin (k * d)) ℚ) ev =>
    -(Mᵀ.mulVec ev)) Jstk cf.errv
  let eta := if lie then eta0
    else (List.range B).map fun b =>
      (eta0.getD b (fun _ => 0)) + (lam.getD b 0).mulVec (catData ops cf.vals b)
  { potentialEta := eta, potentialLam := lam, linPoint := cf.vals }

/-! ## Factor message computation (`Factor.comp_mess`)

The block slicing `[sdim : sdim + dofs]` and the `np.concatenate` of the
complementary slices are modelled by index maps: `blkIdx v` embeds the `v`-th
`d`-block into `Fin (k * d)` and `dropIdx v` enumerates the complement. -/

lemma blk_lt {k d : ℕ} (v : Fin k) (i : Fin d) : (v : ℕ) * d + i < k * d := by
  have h1 : (v : ℕ) * d + i < (v + 1) * d := by
    have := i.isLt
    calc (v : ℕ) * d + i < (v : ℕ) * d + d := by omega
    _ = ((v : ℕ) + 1) * d := by ring
  exact lt_of_lt_of_le h1 (Nat.mul_le_mul_right d v.isLt)

def blkIdx {k d : ℕ} (v : Fin k) (i : Fin d) : Fin (k * d) :=
  ⟨(v : ℕ) * d + i, blk_lt v i⟩

def dropIdx {k d : ℕ} (v : Fin k) (i : Fin (k * d - d)) : Fin (k * d) :=
  if (i : ℕ) < (v : ℕ) * d then
    ⟨i, lt_of_lt_of_le i.isLt (Nat.sub_le _ _)⟩
  else
    ⟨(i : ℕ) + d, Nat.lt_sub_iff_add_lt.mp i.isLt⟩

/-- `eta_factor[sdim : sdim + dofs]` (the `eo` slice). -/
def sliceVec {k d : ℕ} (v : Fin k) (x : Fin (k * d) → ℚ) : Fin d → ℚ :=
  fun i => x (blkIdx v i)

/-- `np.concatenate((eta_factor[:sdim], eta_factor[sdim + dofs:]))`
(the `eno` slice). -/
def dropVec {k d : ℕ} (v : Fin k) (x : Fin (k * d) → ℚ) : Fin (k * d - d) → ℚ :=
  fun i => x (dropIdx v i)

/-- `loo`. -/
def blockOO {k d : ℕ} (v : Fin k)
    (L : Matrix (Fin (k * d)) (Fin (k * d)) ℚ) : Matrix (Fin d) (Fin d) ℚ :=
  fun i j => L (blkIdx v i) (blkIdx v j)

/-- `lono`. -/
def blockONO {k d : ℕ} (v : Fin k)
    (L : Matrix (Fin (k * d)) (Fin (k * d)) ℚ) :
    Matrix (Fin d) (Fin (k * d - d)) ℚ :=
  fun i j => L (blkIdx v i) (dropIdx v j)

/-- `lnoo`. -/
def blockNOO {k d : ℕ} (v : Fin k)
    (L : Matrix (Fin (k * d)) (Fin (k * d)) ℚ) :
    Matrix (Fin (k * d - d)) (Fin d) ℚ :=
  fun i j => L (dropIdx v i) (blkIdx v j)

/-- `lnono`. -/
def blockNONO {k d : ℕ} (v : Fin k)
    (L : Matrix (Fin (k * d)) (Fin (k * d)) ℚ) :
    Matrix (Fin (k * d - d)) (Fin (k * d - d)) ℚ :=
  fun i j => L (dropIdx v i) (dropIdx v j)

/-- `eta_factor[start : start + var_dofs] += eta_mess[0]`. -/
def addSliceVec {k d : ℕ} (i : Fin k) (g : Fin d → ℚ)
    (x : Fin (k * d) → ℚ) : Fin (k * d) → ℚ :=
  fun j => if j.divNat = i then x j + g j.modNat else x j

/-- `lam_factor[start : start + var_dofs, start : start + var_dofs] +=
lam_mess[0]`. -/
def addBlockMat {k d : ℕ} (i : Fin k) (G : Matrix (Fin d) (Fin d) ℚ)
    (L : Matrix (Fin (k * d)) (Fin (k * d)) ℚ) :
    Matrix (Fin (k * d)) (Fin (k * d)) ℚ :=
  fun a b => if a.divNat = i ∧ b.divNat = i then L a b + G a.modNat b.modNat else L a b

/-- The product of the factor potential (batch element 0) with the incoming
messages of every variable other than `v`, each converted to the tangent
space at the linearization point (`comp_mess`, lines 349-362: note the `[0]`
indexing that discards all batch elements but the first). -/
def msgProduct {P : Type} {d k : ℕ} (ops : ManifoldOps P d)
    (vtof : List (MGauss P d)) (lin : List (List P)) (v : Fin k)
    (pot : (Fin (k * d) → ℚ) × Matrix (Fin (k * d)) (Fin (k * d)) ℚ) :
    (Fin (k * d) → ℚ) × Matrix (Fin (k * d)) (Fin (k * d)) ℚ :=
  (List.finRange k).foldl (fun acc i =>
    if i ≠ v then
      let em := localGaussian ops (vtof.getD (i : ℕ) ⟨[], []⟩) (lin.getD (i : ℕ) []) false
      (addSliceVec i (em.1.headD (fun _ => 0)) acc.1,
       addBlockMat i (em.2.headD 0) acc.2)
    else acc) pot

/-- The factor potential (batch element 0) combined with incoming messages,
as used for the outgoing message of variable `v`. -/
def factorProduct0 {P : Type} {d k : ℕ} (ops : ManifoldOps P d)
    (fac : GFactor P d k) (vtof : List (MGauss P d)) (v : Fin k) :
    (Fin (k * d) → ℚ) × Matrix (Fin (k * d)) (Fin (k * d)) ℚ :=
  -- eta_factor = potential_eta.clone()[0]; lam_factor = potential_lam.clone()[0]
  msgProduct ops vtof fac.linPoint v
    (fac.potentialEta.headD (fun _ => 0), fac.potentialLam.headD 0)

/-- `new_mess_lam = loo - lono @ np.linalg.inv(lnono) @ lnoo`: the precision
of the outgoing message for variable `v` (Schur complement of the combined
potential). -/
def schurOutLam {P : Type} {d k : ℕ} (ops : ManifoldOps P d)
    (fac : GFactor P d k) (vtof : List (MGauss P d)) (v : Fin k) :
    Matrix (Fin d) (Fin d) ℚ :=
  let lamF := (factorProduct0 ops fac vtof v).2
  blockOO v lamF - blockONO v lamF * torchInverse (blockNONO v lamF) * blockNOO v lamF

/-- `new_mess_eta = eo - lono @ np.linalg.inv(lnono) @ eno`. -/
def schurOutEta {P : Type} {d k : ℕ} (ops : ManifoldOps P d)
    (fac : GFactor P d k) (vtof : List (MGauss P d)) (v : Fin k) :
    Fin d → ℚ :=
  let prod := factorProduct0 ops fac vtof v
  sliceVec v prod.1 -
    (blockONO v prod.2 * torchInverse (blockNONO v prod.2)).mulVec (dropVec v prod.1)

/-- One iteration of the `for v in range(num_optim_vars)` loop of
`Factor.comp_mess`: Schur-complement marginalization onto variable `v`,
mean damping against the previous outgoing message, and retraction back
onto the manifold (zero aggregate precision short-circuits to a fresh
zero-mean, zero-precision Gaussian). -/
def compMessAt {P : Type} {d e k : ℕ} (ops : ManifoldOps P d)
    (fac : GFactor P d k) (cf : CFCap P d e k)
    (vtof ftov : List (MGauss P d)) (damping : List ℚ) (v : Fin k) :
    MGauss P d :=
  let newLam := schurOutLam ops fac vtof v
  let newEta0 := schurOutEta ops fac vtof v
  -- damping in the tangent space at the linearization point
  let prev := localGaussian ops (ftov.getD (v : ℕ) ⟨[], []⟩) (fac.linPoint.getD (v : ℕ) []) true
  let newEta : Fin d → ℚ :=
    if newLam ≠ 0 then
      let newMean := (torchInverse newLam).mulVec newEta0
      let damped := (1 - damping.getD (v : ℕ) 0) • newMean +
        damping.getD (v : ℕ) 0 • (prev.1.headD (fun _ => 0))
      newLam.mulVec damped
    else newEta0
  if newLam = 0 then
    -- `new_mess.mean[0].data[:] = 0.0` on a fresh ManifoldGaussian
    { mean := (cf.vals.getD (v : ℕ) []).map (fun _ => ops.zeroP),
      precision := (cf.vals.getD (v : ℕ) []).map (fun _ => 0) }
  else
    let newMean := (torchInverse newLam).mulVec newEta
    retractGaussian ops [newMean] [newLam] (fac.linPoint.getD (v : ℕ) [])

/-- `Factor.comp_mess`: the returned list is the new content of the
factor-to-variable messages for the factor's edges (the source writes them
into `ftov_msgs[v]` in place). -/
def GFactor.compMess {P : Type} {d e k : ℕ} (ops : ManifoldOps P d)
    (fac : GFactor P d k) (cf : CFCap P d e k)
    (vtof ftov : List (MGauss P d)) (damping : List ℚ) : List (MGauss P d) :=
  (List.finRange k).map (compMessAt ops fac cf vtof ftov damping)

/-- One factor together with its cost-function capability. -/
structure FactorPack (P : Type) (d e : ℕ) where
  k : ℕ
  fac : GFactor P d k
  cf : CFCap P d e k

/-- `_pass_fac_to_var_messages`: for every factor, relinearize
(`relin_threshold=None`) then compute and write all its outgoing messages,
walking the flat edge-indexed message and damping arrays in factor order.
The `schedule` argument is received exactly as in the source (which never
reads it). -/
def passFacToVarMessages {P : Type} {d e : ℕ} (ops : ManifoldOps P d) :
    List (FactorPack P d e) → List (MGauss P d) → List (MGauss P d) →
    List Bool → List ℚ → List (MGauss P d) × List (FactorPack P d e)
  | [], _, _, _, _ => ([], [])
  | pack :: rest, vtof, ftov, schedule, damping =>
    let fac' := pack.fac.linearize ops pack.cf true
    let newMsgs := fac'.compMess ops pack.cf (vtof.take pack.k) (ftov.take pack.k)
      (damping.take pack.k)
    let restRes := passFacToVarMessages ops rest (vtof.drop pack.k) (ftov.drop pack.k)
      schedule (damping.drop pack.k)
    (newMsgs ++ restRes.1, { pack with fac := fac' } :: restRes.2)

/-! ## Variable-to-factor pass (`_pass_var_to_fac_messages`)

The body of the `for i, var in enumerate(self.ordering)` loop, for one
variable: `msgs` are the incoming factor-to-variable messages of the edges
incident to the variable (those `j` with `var_ix_for_edges[j] == i`), in
edge order; the result is the new outgoing variable-to-factor message for
each of those edges plus the new belief. -/
/-- Incoming message means converted to the tangent space at the current
belief (`taus` in the source; one batched list per incident edge). -/
def incomingTaus {P : Type} {d : ℕ} (ops : ManifoldOps P d)
    (msgs : List (MGauss P d)) (var : List P) : List (List (Fin d → ℚ)) :=
  msgs.map fun m => (localGaussian ops m var true).1

/-- Incoming message precisions in the tangent space at the current belief
(`lams_tp` in the source). -/
def incomingLams {P : Type} {d : ℕ} (ops : ManifoldOps P d)
    (msgs : List (MGauss P d)) (var : List P) :
    List (List (Matrix (Fin d) (Fin d) ℚ)) :=
  msgs.map fun m => (localGaussian ops m var true).2

/-- Batched sum over a list of batched matrices (`.sum(dim=0)` over the edge
dimension). -/
def edgeSum {d : ℕ} (batch : ℕ) (ls : List (List (Matrix (Fin d) (Fin d) ℚ))) :
    List (Matrix (Fin d) (Fin d) ℚ) :=
  (List.range batch).map fun b => (ls.map (fun l => l.getD b 0)).sum

/-- `lam_tau`: the aggregate precision of the belief update. -/
def aggregateLam {P : Type} {d : ℕ} (ops : ManifoldOps P d)
    (msgs : List (MGauss P d)) (var : List P) :
    List (Matrix (Fin d) (Fin d) ℚ) :=
  edgeSum var.length (incomingLams ops msgs var)

/-- `lam_a`: the leave-one-out aggregate precision used for the outgoing
message of edge `ix`. -/
def leaveOneOutLam {P : Type} {d : ℕ} (ops : ManifoldOps P d)
    (msgs : List (MGauss P d)) (var : List P) (ix : ℕ) :
    List (Matrix (Fin d) (Fin d) ℚ) :=
  let lams := incomingLams ops msgs var
  edgeSum var.length ((lams.take ix) ++ (lams.drop (ix + 1)))

def passVarToFacOneVar {P : Type} {d : ℕ} (ops : ManifoldOps P d)
    (msgs : List (MGauss P d)) (var : List P) (vtofOld : List (MGauss P d))
    (belief : MGauss P d) (updateBelief : Bool) :
    List (MGauss P d) × MGauss P d :=
  -- collect all incoming messages in the tangent space at the current belief
  let taus := incomingTaus ops msgs var
  let lams := incomingLams ops msgs var
  let batch := var.length
  -- lam_tau = lams_tp.sum(dim=0)  (batched sum over incident edges)
  let lamTau := aggregateLam ops msgs var
  -- outgoing messages: leave-one-out sums
  let outMsgs := (List.range msgs.length).map fun ix =>
    let tausInc := (taus.take ix) ++ (taus.drop (ix + 1))
    let lamsInc := (lams.take ix) ++ (lams.drop (ix + 1))
    let lamA := leaveOneOutLam ops msgs var ix
    if lamA = (List.replicate batch (0 : Matrix (Fin d) (Fin d) ℚ)) then
      -- vtof_msgs[j].mean[0].data[:] = 0.0; vtof_msgs[j].precision = lam_a
      { mean := ((vtofOld.getD ix ⟨[], []⟩).mean).map (fun _ => ops.zeroP),
        precision := lamA }
    else
      let tauA : List (Fin d → ℚ) := (List.range batch).map fun b =>
        (torchInverse (lamA.getD b 0)).mulVec
          ((List.zipWith (fun (l : Matrix (Fin d) (Fin d) ℚ) t => l.mulVec t)
              (lamsInc.map (fun l => l.getD b 0))
              (tausInc.map (fun t => t.getD b (fun _ => 0)))).sum)
      retractGaussian ops tauA lamA var
  -- belief update: skipped entirely when no incoming precision is nonzero
  let newBelief :=
    if updateBelief ∧ lamTau ≠ List.replicate batch (0 : Matrix (Fin d) (Fin d) ℚ) then
      let tau : List (Fin d → ℚ) := (List.range batch).map fun b =>
        (torchInverse (lamTau.getD b 0)).mulVec
          ((List.zipWith (fun (l : Matrix (Fin d) (Fin d) ℚ) t => l.mulVec t)
              (lams.map (fun l => l.getD b 0))
              (taus.map (fun t => t.getD b (fun _ => 0)))).sum)
      retractGaussian ops tau lamTau var
    else belief
  (outMsgs, newBelief)

/-! ## Concrete instances used by the theorems below -/

/-- Extract the state of a successful operation (the operations evaluated at
the concrete instances below all succeed, witnessed by `rfl`). -/
def okStateD (x : Except String ObjState) : ObjState :=
  match x with
  | .ok s => s
  | .error _ => ObjState.empty 0

def tA : Tensor := ⟨[1, 1], 5⟩

def tB : Tensor := ⟨[1, 1], 7⟩

def tB' : Tensor := ⟨[1, 1], 9⟩

/-- An optimization variable named `x`. -/
def vX : Var := ⟨1, some "x", 0, tA, 0⟩

/-- An auxiliary variable named `y`. -/
def vY : Var := ⟨2, some "y", 0, tB, 0⟩

/-- An auxiliary variable named `wv` registered through a cost weight. -/
def vWv : Var := ⟨3, some "wv", 0, tB, 0⟩

def w1 : Weight := ⟨1, [], []⟩

def w2 : Weight := ⟨2, [], []⟩

/-- A cost weight that registers the auxiliary variable `wv`. -/
def w3 : Weight := ⟨3, [], [vWv]⟩

/-- Cost function `f` over optimization variable `x` and auxiliary `y`. -/
def cf1 : CF := ⟨1, "f", [vX], [vY], w1, fun _ => [1]⟩

/-- A different cost function object that reuses the name `f`. -/
def cf1Clash : CF := ⟨2, "f", [vX], [], w1, fun _ => [1]⟩

/-- Cost function `g` sharing the optimization variable `x` with `f`. -/
def cf2 : CF := ⟨3, "g", [vX], [], w2, fun _ => [2]⟩

/-- Cost function `h` whose weight `w3` registers the auxiliary `wv`. -/
def cf3 : CF := ⟨4, "h", [vX], [], w3, fun _ => [3]⟩

/-- The objective holding exactly `cf1`. -/
def stF : ObjState := okStateD ((ObjState.empty 0).addCF cf1)

/-- The objective holding `cf1` and `cf2` (which share variable `x`). -/
def stFG : ObjState := okStateD (stF.addCF cf2)

/-- The objective holding exactly `cf3` (with weight-registered `wv`). -/
def stH : ObjState := okStateD ((ObjState.empty 0).addCF cf3)

/-- A variable whose tensor has the given leading (batch) dimension. -/
def mkVarB (vid : Nat) (name : String) (bdim : Nat) : Var :=
  ⟨vid, some name, 0, ⟨[bdim, 1], 0⟩, 0⟩

/-- A graph whose registered variables have leading dimensions 3, 3, 3. -/
def stDims333 : ObjState :=
  { ObjState.empty 0 with
    varStore := [(1, mkVarB 1 "a" 3), (2, mkVarB 2 "b" 3), (3, mkVarB 3 "c" 3)]
    optimVars := [("a", 1), ("b", 2), ("c", 3)] }

/-- A graph whose registered variables have leading dimensions 1, 5. -/
def stDims15 : ObjState :=
  { ObjState.empty 0 with
    varStore := [(1, mkVarB 1 "a" 1), (2, mkVarB 2 "b" 5)]
    optimVars := [("a", 1), ("b", 2)] }

/-- A graph whose registered variables have leading dimensions 2, 5. -/
def stDims25 : ObjState :=
  { ObjState.empty 0 with
    varStore := [(1, mkVarB 1 "a" 2), (2, mkVarB 2 "b" 5)]
    optimVars := [("a", 1), ("b", 2)] }

/-- The state after a temporary-update `error` call on `stF` that supplies a
new tensor for the auxiliary variable `y`. -/
def stC4 : ObjState :=
  match stF.error (some [("y", tB')]) false with
  | .ok (_, s) => s
  | .error _ => ObjState.empty 0

/-! Concrete GBP data: the one-dimensional translation group on `ℚ`
(`retract` is addition, `local` is subtraction, the exponential map is the
identity with jacobian `1`). -/

def QOps : ManifoldOps ℚ 1 :=
  { localTo := fun v m _ => m - v
    retractTo := fun v t => v + t 0
    expJac := fun _ => 1
    zeroP := 0
    dataVec := fun p _ => p }

/-- A zero-mean, zero-precision message (batch size 1). -/
def mgZero : MGauss ℚ 1 := ⟨[0], [0]⟩

/-- A nonzero previous factor-to-variable message (batch size 1). -/
def mgPrev : MGauss ℚ 1 := ⟨[5], [!![2]]⟩

/-- A single-variable factor with zero potential (batch size 1). -/
def facZ : GFactor ℚ 1 1 := ⟨[fun _ => 0], [0], [[0]]⟩

/-- Cost-function data with zero jacobian and error (batch size 1). -/
def cfcZ : CFCap ℚ 1 1 1 := ⟨[[0]], [[0]], [fun _ => 0]⟩

def packZ : FactorPack ℚ 1 1 := ⟨1, facZ, cfcZ⟩

/-! Batch-size-2 data for the batching claim: the `a` and `b` variants agree
on batch element 0 of every array and differ on batch element 1. -/

def facB2a : GFactor ℚ 1 1 := ⟨[fun _ => 1, fun _ => 10], [!![3], !![20]], [[0, 30]]⟩

def facB2b : GFactor ℚ 1 1 := ⟨[fun _ => 1, fun _ => 40], [!![3], !![50]], [[0, 60]]⟩

def cfcB2 : CFCap ℚ 1 1 1 := ⟨[[0, 2]], [[!![1], !![4]]], [fun _ => 1, fun _ => 2]⟩

def mgB2a : MGauss ℚ 1 := ⟨[0, 90], [!![1], !![21]]⟩

def mgB2b : MGauss ℚ 1 := ⟨[0, 95], [!![1], !![22]]⟩

/-! ## Lemmas about batch-size resolution -/

lemma dedup_of_all_eq {l : List Nat} {n : Nat} (hne : l ≠ [])
    (hall : ∀ x ∈ l, x = n) : l.dedup = [n] := by
  induction l with
  | nil => exact absurd rfl hne
  | cons a rest ih =>
    have ha : a = n := hall a (by simp)
    subst ha
    rcases rest with _ | ⟨b, rest'⟩
    · simp
    · have hb : b = a := hall b (by simp)
      subst hb
      have hrest : (b :: rest').dedup = [b] :=
        ih (by simp) (fun x hx => hall x (List.mem_cons_of_mem _ hx))
      rw [List.dedup_cons_of_mem (by simp), hrest]

lemma toFinset_dedup' (l : List Nat) : l.dedup.toFinset = l.toFinset := by
  apply List.toFinset.ext_iff.mpr
  intro x
  simp [List.mem_dedup]

lemma getBatchSize_all_eq {l : List Nat} {n : Nat} (hne : l ≠ [])
    (hall : ∀ x ∈ l, x = n) : getBatchSize l = .ok n := by
  have hd := dedup_of_all_eq hne hall
  rcases l with _ | ⟨a, rest⟩
  · exact absurd rfl hne
  · have ha : a = n := hall a (by simp)
    subst ha
    simp [getBatchSize, hd]

lemma getBatchSize_one_and {l : List Nat} {n : Nat} (hn : 1 < n)
    (hset : l.toFinset = {1, n}) : getBatchSize l = .ok n := by
  have hnodup : l.dedup.Nodup := l.nodup_dedup
  have hdf : l.dedup.toFinset = ({1, n} : Finset Nat) := by
    rw [toFinset_dedup', hset]
  have hlen : l.dedup.length = 2 := by
    rw [← List.card_toFinset, hset]
    rw [Finset.card_insert_of_not_mem (by simp; omega), Finset.card_singleton]
  rcases hld : l.dedup with _ | ⟨a, _ | ⟨b, _ | ⟨c, rest⟩⟩⟩ <;>
    rw [hld] at hlen <;> simp at hlen
  -- dedup = [a, b] with {a, b} = {1, n}
  rw [hld] at hdf hnodup
  have hane : a ≠ b := by simp [List.nodup_cons] at hnodup; tauto
  have ha : a = 1 ∨ a = n := by
    have : a ∈ ({1, n} : Finset Nat) := by rw [← hdf]; simp
    simpa using this
  have hb : b = 1 ∨ b = n := by
    have : b ∈ ({1, n} : Finset Nat) := by rw [← hdf]; simp
    simpa using this
  have hmin : min a b = 1 := by omega
  have hmax : max a b = n := by omega
  simp [getBatchSize, hld, hmin, hmax]

lemma getBatchSize_err {l : List Nat} (hcard : 2 ≤ l.toFinset.card)
    (hno : ∀ m, ¬(1 < m ∧ l.toFinset = {1, m})) :
    ∃ e, getBatchSize l = .error e := by
  have hnodup : l.dedup.Nodup := l.nodup_dedup
  have hlen : l.dedup.length = l.toFinset.card := (List.card_toFinset l).symm
  rcases hld : l.dedup with _ | ⟨a, _ | ⟨b, _ | ⟨c, rest⟩⟩⟩
  · rw [hld] at hlen; simp at hlen; omega
  · rw [hld] at hlen; simp at hlen; omega
  · -- two distinct values a, b
    have hane : a ≠ b := by
      rw [hld] at hnodup; simp [List.nodup_cons] at hnodup; tauto
    by_cases hmin : min a b = 1
    · -- then the set is {1, m} for some m > 1, contradicting the hypothesis
      exfalso
      have hset : l.toFinset = {a, b} := by
        rw [← toFinset_dedup' l, hld]; simp
      rcases Nat.le_total a b with hle | hle
      · have ha1 : a = 1 := by omega
        have hb1 : 1 < b := by omega
        exact hno b ⟨hb1, by rw [hset, ha1]⟩
      · have hb1 : b = 1 := by omega
        have ha1 : 1 < a := by omega
        refine hno a ⟨ha1, ?_⟩
        rw [hset, hb1]
        exact Finset.pair_comm a 1
    · exact ⟨"Provided tensors must be broadcastable.",
        by simp [getBatchSize, hld, hmin]⟩
  · exact ⟨"Provided tensors must be broadcastable.",
      by simp [getBatchSize, hld]⟩

/-! ## Version-counter lemmas

None of the variable-bookkeeping helpers touches `current_version`; only
`add` and `erase` increment it. -/

lemma bind_ok {α β : Type} {x : Except String α} {f : α → Except String β} {b : β} :
    (x >>= f) = .ok b ↔ ∃ a, x = .ok a ∧ f a = .ok b := by
  cases x <;> simp [Bind.bind, Except.bind]

lemma addVarStep_version {o c : Bool} {fn : FnRef} {st st' : ObjState} {v : Var}
    (h : st.addVarStep o c fn v = .ok st') : st'.version = st.version := by
  simp only [ObjState.addVarStep] at h
  split at h
  · cases h
  · by_cases hdt : v.dtype = st.dtype
    · rw [if_pos hdt, bind_ok] at h
      obtain ⟨st1, h1, h2⟩ := h
      have e1 : st1.version = st.version := by
        split at h1
        · split at h1
          · cases h1; rfl
          · cases h1
        · split at h1 <;> (cases h1; rfl)
      rw [← e1]
      repeat' split at h2
      all_goals first | (cases h2; rfl) | cases h2
    · rw [if_neg hdt] at h; cases h

lemma addFnVars_version {o c : Bool} {fn : FnRef} {st st' : ObjState}
    {vs : List Var} (h : st.addFnVars o c fn vs = .ok st') :
    st'.version = st.version := by
  induction vs generalizing st with
  | nil => simp only [ObjState.addFnVars] at h; cases h; rfl
  | cons v rest ih =>
    simp only [ObjState.addFnVars, bind_ok] at h
    obtain ⟨st1, h1, h2⟩ := h
    rw [ih h2, addVarStep_version h1]

lemma eraseVarStep_version {o c : Bool} {fn : FnRef} {st st' : ObjState} {v : Var}
    (h : st.eraseVarStep o c fn v = .ok st') : st'.version = st.version := by
  simp only [ObjState.eraseVarStep] at h
  repeat' split at h
  all_goals first | (cases h; rfl) | cases h

lemma eraseFnVars_version {o c : Bool} {fn : FnRef} {st st' : ObjState}
    {vs : List Var} (h : st.eraseFnVars o c fn vs = .ok st') :
    st'.version = st.version := by
  induction vs generalizing st with
  | nil => simp only [ObjState.eraseFnVars] at h; cases h; rfl
  | cons v rest ih =>
    simp only [ObjState.eraseFnVars, bind_ok] at h
    obtain ⟨st1, h1, h2⟩ := h
    rw [ih h2, eraseVarStep_version h1]

lemma updateVarStep_version {st st' : ObjState} {name : String} {t : Tensor}
    (h : st.updateVarStep name t = .ok st') : st'.version = st.version := by
  simp only [ObjState.updateVarStep] at h
  repeat' split at h
  all_goals first | (cases h; rfl) | cases h

lemma updateLoop_version {st st' : ObjState} {inp : List (String × Tensor)}
    (h : st.updateLoop inp = .ok st') : st'.version = st.version := by
  induction inp generalizing st with
  | nil => simp only [ObjState.updateLoop] at h; cases h; rfl
  | cons p rest ih =>
    obtain ⟨name, t⟩ := p
    simp only [ObjState.updateLoop, bind_ok] at h
    obtain ⟨st1, h1, h2⟩ := h
    rw [ih h2, updateVarStep_version h1]

lemma resolveBatchSize_version {st st' : ObjState}
    (h : st.resolveBatchSize = .ok st') : st'.version = st.version := by
  simp only [ObjState.resolveBatchSize] at h
  split at h
  · cases h; rfl
  · cases h

lemma update_version {st st' : ObjState} {inp : List (String × Tensor)}
    (h : st.update inp = .ok st') : st'.version = st.version := by
  simp only [ObjState.update, bind_ok] at h
  obtain ⟨st1, h1, h2⟩ := h
  rw [resolveBatchSize_version h2, updateLoop_version h1]

lemma addCF_version {st st' : ObjState} {cf : CF}
    (h : st.addCF cf = .ok st') : st'.version = st.version + 1 := by
  simp only [ObjState.addCF, bind_ok] at h
  obtain ⟨st1, h1, st2, h2, st3, h3, st4, h4, h5⟩ := h
  have e1 : st1.version = st.version := by
    split at h1
    · split at h1
      · cases h1; rfl
      · cases h1
    · cases h1; rfl
  have e2 := addFnVars_version h2
  have e3 := addFnVars_version h3
  have e4 : st4.version = st3.version := by
    split at h4
    · rw [bind_ok] at h4
      obtain ⟨sa, ha, hrest⟩ := h4
      rw [bind_ok] at hrest
      obtain ⟨sb, hb, hc⟩ := hrest
      have ea := addFnVars_version ha
      have eb := addFnVars_version hb
      split at hc
      · cases hc
      · cases hc; simp_all
    · cases h4; rfl
  have e5 : st'.version = st4.version := by
    split at h5
    · cases h5; rfl
    · split at h5
      · cases h5
      · cases h5; rfl
  simp at e2 e3
  omega

lemma error_version {st : ObjState} {inp : Option (List (String × Tensor))}
    {au : Bool} {res : List ℚ × ObjState}
    (h : st.error inp au = .ok res) : res.2.version = st.version := by
  simp only [ObjState.error] at h
  split at h
  · cases h; rfl
  · rw [bind_ok] at h
    obtain ⟨st1, h1, h2⟩ := h
    split at h2
    · cases h2; exact update_version h1
    · rw [bind_ok] at h2
      obtain ⟨st2, h21, h22⟩ := h2
      cases h22
      rw [update_version h21, update_version h1]

/-! # Claim theorems -/

/-- **C9** For every Problem Graph whose registered variables have leading
(batch) dimensions all equal to the same value `n`, `_resolve_batch_size`
(as run by `update`) resolves the batch size to `n`; when the set of leading
dimensions is exactly `{1, n}` with `n > 1`, it resolves to `n`; for any
other set of two or more distinct values it raises a structural error. -/
theorem C9_batch_size_resolution :
    (∀ (st : ObjState) (n : ℕ), st.varBatchDims ≠ [] →
      (∀ x ∈ st.varBatchDims, x = n) →
      st.resolveBatchSize = .ok { st with batchSize := some n }) ∧
    (∀ (st : ObjState) (n : ℕ), 1 < n → st.varBatchDims.toFinset = {1, n} →
      st.resolveBatchSize = .ok { st with batchSize := some n }) ∧
    (∀ st : ObjState, 2 ≤ st.varBatchDims.toFinset.card →
      (∀ m, ¬(1 < m ∧ st.varBatchDims.toFinset = {1, m})) →
      ∃ e, st.resolveBatchSize = .error e) := by
  refine ⟨fun st n hne hall => ?_, fun st n hn hset => ?_, fun st hcard hno => ?_⟩
  · simp [ObjState.resolveBatchSize, getBatchSize_all_eq hne hall]
  · simp [ObjState.resolveBatchSize, getBatchSize_one_and hn hset]
  · obtain ⟨e, he⟩ := getBatchSize_err hcard hno
    exact ⟨e, by simp [ObjState.resolveBatchSize, he]⟩

/-- Witness for C9 at the concrete dimension multisets {3,3,3}, {1,5} and
{2,5} of the testable-properties section. -/
theorem C9_batch_size_resolution_witness :
    (stDims333.varBatchDims ≠ [] ∧ (∀ x ∈ stDims333.varBatchDims, x = 3) ∧
      stDims333.resolveBatchSize = .ok { stDims333 with batchSize := some 3 }) ∧
    ((1 : ℕ) < 5 ∧ stDims15.varBatchDims.toFinset = {1, 5} ∧
      stDims15.resolveBatchSize = .ok { stDims15 with batchSize := some 5 }) ∧
    (2 ≤ stDims25.varBatchDims.toFinset.card ∧
      ∃ e, stDims25.resolveBatchSize = .error e) := by
  have hno : ∀ m, ¬(1 < m ∧ stDims25.varBatchDims.toFinset = {1, m}) := by
    intro m hm
    have h1 : (1 : ℕ) ∈ stDims25.varBatchDims.toFinset := by
      rw [hm.2]; simp
    revert h1; decide
  refine ⟨⟨by decide, by decide,
      C9_batch_size_resolution.1 stDims333 3 (by decide) (by decide)⟩,
    ⟨by decide, by decide,
      C9_batch_size_resolution.2.1 stDims15 5 (by decide) (by decide)⟩,
    ⟨by decide, C9_batch_size_resolution.2.2 stDims25 (by decide) hno⟩⟩

/-- **C10** Every completed `add` call and every completed `erase` call
increments the version counter by exactly one — including the calls that
change no structure and only warn — while `update` and `error` leave it
unchanged (the query operations are pure functions of the state and return
no state at all). -/
theorem C10_version_counter :
    (∀ (st : ObjState) (cf : CF) (st' : ObjState),
      st.addCF cf = .ok st' → st'.version = st.version + 1) ∧
    (∀ (st : ObjState) (name : String) (st' : ObjState),
      st.eraseCF name = .ok st' → st'.version = st.version + 1) ∧
    (∀ (st : ObjState) (inp : List (String × Tensor)) (st' : ObjState),
      st.update inp = .ok st' → st'.version = st.version) ∧
    (∀ (st : ObjState) (inp : Option (List (String × Tensor))) (au : Bool)
        (res : List ℚ × ObjState),
      st.error inp au = .ok res → res.2.version = st.version) := by
  refine ⟨fun st cf st' h => addCF_version h,
    fun st name st' h => ?_,
    fun st inp st' h => update_version h,
    fun st inp au res h => error_version h⟩
  -- erase: the increment happens before any branch
  simp only [ObjState.eraseCF] at h
  split at h
  · cases h; rfl
  · rw [bind_ok] at h
    obtain ⟨st1, h1, h2⟩ := h
    rw [bind_ok] at h2
    obtain ⟨st2, h21, h22⟩ := h2
    have e1 := eraseFnVars_version h1
    have e2 := eraseFnVars_version h21
    split at h22
    · cases h22
    · split at h22
      · rw [bind_ok] at h22
        obtain ⟨st3, h31, h32⟩ := h22
        have e3 : st3.version = st2.version := by
          split at h31
          · rw [bind_ok] at h31
            obtain ⟨sa, ha, hrest⟩ := h31
            rw [bind_ok] at hrest
            obtain ⟨sb, hb, hc⟩ := hrest
            cases hc
            have ea := eraseFnVars_version ha
            have eb := eraseFnVars_version hb
            simp_all
          · cases h31; rfl
        cases h32
        simp_all
      · cases h22

/-- Witness for C10: a completed `add`, a completed `erase` of an absent
name (which only warns), an `update`, and a temporary-update `error` call,
all on concrete graphs. -/
theorem C10_version_counter_witness :
    (okStateD ((ObjState.empty 0).addCF cf1)).version = (ObjState.empty 0).version + 1 ∧
    (okStateD ((ObjState.empty 0).eraseCF "g")).version = (ObjState.empty 0).version + 1 ∧
    (okStateD (stF.update [])).version = stF.version ∧
    stC4.version = stF.version := by
  refine ⟨C10_version_counter.1 _ cf1 _ rfl,
    C10_version_counter.2.1 _ "g" _ rfl,
    C10_version_counter.2.2.1 _ [] _ rfl,
    C10_version_counter.2.2.2 stF (some [("y", tB')]) false ([1], stC4) rfl⟩

/-- **C3** (code bug): re-adding the very same cost function object raises
no error, but it does *not* leave the bookkeeping unchanged: the cost
function is appended a second time to the adjacency list of each of its
variables and to the weight-to-cost-functions mapping, right after the
"already added, nothing to be done" warning.  A different object with a
colliding name does raise a structural error. -/
theorem C3_readd_not_idempotent :
    (ObjState.empty 0).addCF cf1 = .ok stF ∧
    aget stF.fnsForOptimVars vX.vid = some [.cf cf1.cfid] ∧
    aget stF.cfsForWeights w1.wid = some [cf1.cfid] ∧
    stF.addCF cf1 = .ok (okStateD (stF.addCF cf1)) ∧
    aget (okStateD (stF.addCF cf1)).fnsForOptimVars vX.vid =
      some [.cf cf1.cfid, .cf cf1.cfid] ∧
    aget (okStateD (stF.addCF cf1)).cfsForWeights w1.wid =
      some [cf1.cfid, cf1.cfid] ∧
    (∃ e, stF.addCF cf1Clash = .error e) := by
  exact ⟨rfl, rfl, rfl, rfl, rfl, rfl,
    ⟨"Two different cost function objects with the same name are not allowed in the same objective.",
      rfl⟩⟩

/-- **C2** (counterexample): at batch element 0 of `err = [0, 6]`,
`lastErr = [3, 9]` with the GBP default tolerances, the rule stated by the
claim (per-element `|err_i| < EPS` is a convergence condition) reports the
element converged, but `_check_convergence` does not: its EPS test compares
the *batch mean* of `|err|` (here 3) against EPS, and the element fails both
tolerance tests. -/
theorem C2_convergence_check_counterexample :
    claimConverged (1 / 10 ^ 10) (1 / 10 ^ 8) 0 3 = true ∧
    (checkConvergence (1 / 10 ^ 10) (1 / 10 ^ 8) [0, 6] [3, 9]).getD 0 false = false := by
  constructor
  · simp only [claimConverged, Bool.or_eq_true, decide_eq_true_eq]
    left; left
    rw [EPS]; norm_num
  · have hm : ¬ ((([(0:ℚ), 6].map abs).sum / (([(0:ℚ), 6].length : ℚ))) < EPS) := by
      rw [EPS]; norm_num
    simp only [checkConvergence, if_neg hm]
    norm_num [EPS]

/-- **C2** (amended): the convergence check marks *every* element converged
when the batch mean of `|err|` is below EPS; otherwise element `i` is
converged exactly when `|prevErr_i - err_i| < absTol` or when
`prevErr_i` is nonzero and `|prevErr_i - err_i| / prevErr_i < relTol`
(denominator without absolute value; a zero denominator never converges,
matching torch `inf`/`nan` comparisons). -/
theorem C2_convergence_check_amended :
    ∀ (absTol relTol : ℚ) (err lastErr : List ℚ) (i : ℕ),
      i < err.length → i < lastErr.length →
      ((checkConvergence absTol relTol err lastErr).getD i false = true ↔
        ((err.map abs).sum / (err.length : ℚ) < EPS ∨
          |lastErr.getD i 0 - err.getD i 0| < absTol ∨
          (lastErr.getD i 0 ≠ 0 ∧
            |lastErr.getD i 0 - err.getD i 0| / lastErr.getD i 0 < relTol))) := by
  intro absTol relTol err lastErr i h1 h2
  unfold checkConvergence
  by_cases hm : (err.map abs).sum / (err.length : ℚ) < EPS
  · simp [hm, List.getD_eq_getElem?_getD, List.getElem?_replicate, h1]
  · simp [hm, List.getD_eq_getElem?_getD, List.getElem?_zipWith',
      List.getElem?_eq_getElem, h1, h2, Bool.or_eq_true, Bool.and_eq_true,
      decide_eq_true_eq]

/-- Witness for the amended C2 theorem at a concrete batch. -/
theorem C2_convergence_check_witness :
    ((0 < [(2:ℚ)].length ∧ 0 < [(3:ℚ)].length) ∧
      ((checkConvergence 1 1 [2] [3]).getD 0 false = true ↔
        (([(2:ℚ)].map abs).sum / (([(2:ℚ)].length : ℚ)) < EPS ∨
          |[(3:ℚ)].getD 0 0 - [(2:ℚ)].getD 0 0| < 1 ∨
          ([(3:ℚ)].getD 0 0 ≠ 0 ∧
            |[(3:ℚ)].getD 0 0 - [(2:ℚ)].getD 0 0| / [(3:ℚ)].getD 0 0 < 1)))) :=
  ⟨⟨by decide, by decide⟩,
    C2_convergence_check_amended 1 1 [2] [3] 0 (by decide) (by decide)⟩

/-! ## Association-list lemmas -/

lemma aget_aset_self {α β : Type} [DecidableEq α] (d : List (α × β)) (k : α) (v : β) :
    aget (aset d k v) k = some v := by
  induction d with
  | nil => simp [aget, aset]
  | cons p rest ih =>
    obtain ⟨k', v'⟩ := p
    by_cases h : k = k' <;> simp [aget, aset, h, ih]

lemma aget_aset_ne {α β : Type} [DecidableEq α] {d : List (α × β)} {k k' : α} (v : β)
    (h : k' ≠ k) : aget (aset d k v) k' = aget d k' := by
  induction d with
  | nil => simp [aget, aset, h]
  | cons p rest ih =>
    obtain ⟨a, b⟩ := p
    by_cases h1 : k = a
    · subst h1; simp [aget, aset, h]
    · by_cases h2 : k' = a <;> simp [aget, aset, h1, h2, ih]

lemma aget_aupdate_self {α β : Type} [DecidableEq α] (d : List (α × β)) (k : α) (f : β → β) :
    aget (aupdate d k f) k = (aget d k).map f := by
  unfold aupdate
  cases h : aget d k with
  | none => simp [h]
  | some v => simp [aget_aset_self]

lemma aget_aupdate_ne {α β : Type} [DecidableEq α] {d : List (α × β)} {k k' : α}
    (f : β → β) (h : k' ≠ k) : aget (aupdate d k f) k' = aget d k' := by
  unfold aupdate
  cases aget d k with
  | none => rfl
  | some v => exact aget_aset_ne _ h

lemma aget_eq_some_mem {α β : Type} [DecidableEq α] {d : List (α × β)} {k : α} {v : β}
    (h : aget d k = some v) : (k, v) ∈ d := by
  induction d with
  | nil => simp [aget] at h
  | cons p rest ih =>
    obtain ⟨a, b⟩ := p
    by_cases h1 : k = a
    · subst h1; simp [aget] at h; simp [h]
    · simp [aget, h1] at h; simp [ih h]

lemma aget_isSome_of_mem_keys {α β : Type} [DecidableEq α] {d : List (α × β)} {k : α}
    (h : k ∈ d.map Prod.fst) : (aget d k).isSome := by
  induction d with
  | nil => simp at h
  | cons p rest ih =>
    obtain ⟨a, b⟩ := p
    simp only [List.map_cons, List.mem_cons] at h
    by_cases h1 : k = a
    · subst h1; simp [aget]
    · rcases h with h | h
      · exact absurd h h1
      · simp [aget, h1, ih h]

lemma aget_of_mem_nodup {α β : Type} [DecidableEq α] {d : List (α × β)} {k : α} {v : β}
    (hnd : (d.map Prod.fst).Nodup) (h : (k, v) ∈ d) : aget d k = some v := by
  induction d with
  | nil => simp at h
  | cons p rest ih =>
    obtain ⟨a, b⟩ := p
    simp only [List.map_cons, List.nodup_cons] at hnd
    rcases List.mem_cons.mp h with h1 | h1
    · cases h1; simp [aget]
    · have hka : k ≠ a := by
        intro hk
        subst hk
        exact hnd.1 (List.mem_map.mpr ⟨(k, v), h1, rfl⟩)
      simp [aget, hka, ih hnd.2 h1]

/-! ## Effect of `update` on the variable store -/

lemma updateVarStep_dicts {st st' : ObjState} {name : String} {t : Tensor}
    (h : st.updateVarStep name t = .ok st') :
    st'.optimVars = st.optimVars ∧ st'.auxVars = st.auxVars ∧
      st'.cwOptimVars = st.cwOptimVars := by
  simp only [ObjState.updateVarStep] at h
  repeat' split at h
  all_goals first | (cases h; exact ⟨rfl, rfl, rfl⟩) | cases h

lemma updateLoop_dicts {st st' : ObjState} {inp : List (String × Tensor)}
    (h : st.updateLoop inp = .ok st') :
    st'.optimVars = st.optimVars ∧ st'.auxVars = st.auxVars ∧
      st'.cwOptimVars = st.cwOptimVars := by
  induction inp generalizing st with
  | nil => simp only [ObjState.updateLoop] at h; cases h; exact ⟨rfl, rfl, rfl⟩
  | cons q rest ih =>
    obtain ⟨name, t⟩ := q
    simp only [ObjState.updateLoop, bind_ok] at h
    obtain ⟨st1, h1, h2⟩ := h
    obtain ⟨e1, e2, e3⟩ := updateVarStep_dicts h1
    obtain ⟨f1, f2, f3⟩ := ih h2
    exact ⟨f1.trans e1, f2.trans e2, f3.trans e3⟩

lemma resolveBatchSize_varStore {st st' : ObjState}
    (h : st.resolveBatchSize = .ok st') : st'.varStore = st.varStore := by
  simp only [ObjState.resolveBatchSize] at h
  split at h
  · cases h; rfl
  · cases h

lemma updateVarStep_store_optim {st st' : ObjState} {name : String} {t : Tensor}
    {vid : Nat} (hres : aget st.optimVars name = some vid)
    (h : st.updateVarStep name t = .ok st') :
    st'.varStore = aupdate st.varStore vid (·.updateTensor t) := by
  simp only [ObjState.updateVarStep, hres] at h
  split at h
  · cases h
  · cases h; rfl

/-- Writing a variable never touches other store entries, and keeps every
key present. -/
lemma updateVarStep_getVar_other {st st' : ObjState} {name : String} {t : Tensor}
    {vid target : Nat} (hres : aget st.optimVars name = some vid)
    (hne : target ≠ vid) (h : st.updateVarStep name t = .ok st') :
    st'.getVar target = st.getVar target := by
  simp only [ObjState.getVar]
  rw [updateVarStep_store_optim hres h, aget_aupdate_ne _ hne]

/-- The write-back loop of a temporary `error` call: if every entry of `L`
that resolves (through the optimization-variable dictionary `D`) to `target`
carries the tensor `t`, every entry resolves to *some* optimization
variable, and either some entry targets `target` or the store already holds
`t` there, then after the loop the store holds `t` at `target`. -/
lemma updateLoop_restores {D : List (String × Nat)} :
    ∀ (L : List (String × Tensor)) (st stR : ObjState),
      st.optimVars = D →
      st.updateLoop L = .ok stR →
      ∀ (target : Nat) (t : Tensor),
        (∀ q ∈ L, aget D q.1 = some target → q.2 = t) →
        (∀ q ∈ L, (aget D q.1).isSome) →
        ((∃ q ∈ L, aget D q.1 = some target) ∨
          (st.getVar target).map Var.tensor = some t) →
        (st.getVar target).isSome →
        (stR.getVar target).map Var.tensor = some t := by
  intro L
  induction L with
  | nil =>
    intro st stR hD h target t _ _ hE hsome
    simp only [ObjState.updateLoop] at h
    cases h
    rcases hE with ⟨q, hq, _⟩ | hcur
    · simp at hq
    · exact hcur
  | cons q rest ih =>
    intro st stR hD h target t hC hres hE hsome
    obtain ⟨name, tq⟩ := q
    simp only [ObjState.updateLoop, bind_ok] at h
    obtain ⟨st1, h1, h2⟩ := h
    have hD1 : st1.optimVars = D := by
      rw [(updateVarStep_dicts h1).1, hD]
    have hresq : (aget D name).isSome := hres (name, tq) (by simp)
    obtain ⟨vid, hvid⟩ := Option.isSome_iff_exists.mp hresq
    have hvid' : aget st.optimVars name = some vid := by rw [hD]; exact hvid
    have hstore := updateVarStep_store_optim hvid' h1
    by_cases htgt : vid = target
    · -- this entry writes `target`, necessarily with tensor `t`
      subst htgt
      have htq : tq = t := hC (name, tq) (by simp) hvid
      subst htq
      have hcur1 : (st1.getVar vid).map Var.tensor = some tq := by
        simp only [ObjState.getVar] at hsome ⊢
        rw [hstore, aget_aupdate_self]
        obtain ⟨w, hw⟩ := Option.isSome_iff_exists.mp hsome
        simp [hw, Var.updateTensor]
      have hsome1 : (st1.getVar vid).isSome := by
        simp only [ObjState.getVar]
        rw [hstore, aget_aupdate_self]
        simp only [ObjState.getVar] at hsome
        simp [Option.isSome_map, hsome]
      exact ih st1 stR hD1 h2 vid tq
        (fun q hq hyp => hC q (by simp [hq]) hyp)
        (fun q hq => hres q (by simp [hq]))
        (Or.inr hcur1) hsome1
    · -- this entry writes another variable: the store at `target` is intact
      have hother : st1.getVar target = st.getVar target :=
        updateVarStep_getVar_other hvid' (fun hh => htgt hh.symm) h1
      have hsome1 : (st1.getVar target).isSome := by rw [hother]; exact hsome
      refine ih st1 stR hD1 h2 target t
        (fun q hq hyp => hC q (by simp [hq]) hyp)
        (fun q hq => hres q (by simp [hq])) ?_ hsome1
      rcases hE with ⟨⟨qn, qt⟩, hq, hqt⟩ | hcur
      · rcases List.mem_cons.mp hq with hq | hq
        · exfalso
          apply htgt
          cases hq
          rw [hvid] at hqt
          exact (Option.some.injEq _ _).mp hqt
        · exact Or.inl ⟨_, hq, hqt⟩
      · exact Or.inr (by rw [hother]; exact hcur)

lemma aget_aupdate_isSome {α β : Type} [DecidableEq α] (d : List (α × β)) (k k' : α)
    (f : β → β) : (aget (aupdate d k f) k').isSome = (aget d k').isSome := by
  by_cases h : k' = k
  · subst h; rw [aget_aupdate_self]; cases aget d k' <;> simp
  · rw [aget_aupdate_ne _ h]

lemma updateVarStep_isSome {st st' : ObjState} {name : String} {t : Tensor}
    (h : st.updateVarStep name t = .ok st') (target : Nat) :
    (st'.getVar target).isSome = (st.getVar target).isSome := by
  simp only [ObjState.updateVarStep] at h
  repeat' split at h
  all_goals first
    | (cases h; simp [ObjState.getVar, aget_aupdate_isSome])
    | cases h

lemma updateLoop_isSome {st st' : ObjState} {inp : List (String × Tensor)}
    (h : st.updateLoop inp = .ok st') (target : Nat) :
    (st'.getVar target).isSome = (st.getVar target).isSome := by
  induction inp generalizing st with
  | nil => simp only [ObjState.updateLoop] at h; cases h; rfl
  | cons q rest ih =>
    obtain ⟨name, t⟩ := q
    simp only [ObjState.updateLoop, bind_ok] at h
    obtain ⟨st1, h1, h2⟩ := h
    rw [ih h2, updateVarStep_isSome h1]

lemma resolveBatchSize_fields {st st' : ObjState}
    (h : st.resolveBatchSize = .ok st') :
    st'.varStore = st.varStore ∧ st'.optimVars = st.optimVars ∧
      st'.auxVars = st.auxVars ∧ st'.cwOptimVars = st.cwOptimVars := by
  simp only [ObjState.resolveBatchSize] at h
  split at h
  · cases h; exact ⟨rfl, rfl, rfl, rfl⟩
  · cases h

lemma update_optimVars {st st' : ObjState} {inp : List (String × Tensor)}
    (h : st.update inp = .ok st') : st'.optimVars = st.optimVars := by
  simp only [ObjState.update, bind_ok] at h
  obtain ⟨st1, h1, h2⟩ := h
  rw [(resolveBatchSize_fields h2).2.1, (updateLoop_dicts h1).1]

lemma update_isSome {st st' : ObjState} {inp : List (String × Tensor)}
    (h : st.update inp = .ok st') (target : Nat) :
    (st'.getVar target).isSome = (st.getVar target).isSome := by
  simp only [ObjState.update, bind_ok] at h
  obtain ⟨st1, h1, h2⟩ := h
  rw [ObjState.getVar, (resolveBatchSize_fields h2).1, ← ObjState.getVar,
    updateLoop_isSome h1]

/-- **C4** (amended): a temporary-update `error` call evaluates the error on
the updated state, and afterwards restores every registered *optimization*
variable to the tensor it held before the call.  (Auxiliary and
weight-only-optimization variables named in the input are not restored, as
the counterexample shows: `old_tensors` is collected from `optim_vars`
only.) -/
theorem C4_error_restores :
    ∀ (st : ObjState) (inp : List (String × Tensor)) (errv : List ℚ) (st' : ObjState),
      (st.optimVars.map Prod.fst).Nodup →
      st.error (some inp) false = .ok (errv, st') →
      (∃ st1, st.update inp = .ok st1 ∧ errv = st1.errorVector) ∧
      (∀ name target, aget st.optimVars name = some target →
        (st.getVar target).isSome →
        (st'.getVar target).map Var.tensor = (st.getVar target).map Var.tensor) := by
  intro st inp errv st' hnd h
  simp only [ObjState.error, Bool.false_eq_true, not_false_eq_true, if_true,
    if_false, bind_ok] at h
  obtain ⟨st1, h1, st2, h21, h22⟩ := h
  rw [Except.ok.injEq, Prod.mk.injEq] at h22
  obtain ⟨he, hs⟩ := h22
  subst he
  subst hs
  refine ⟨⟨st1, h1, rfl⟩, ?_⟩
  intro name target hres hsome
  obtain ⟨w, hw⟩ := Option.isSome_iff_exists.mp hsome
  -- decompose the restoring update
  simp only [ObjState.update, bind_ok] at h21
  obtain ⟨st2a, hloop, hresolve⟩ := h21
  -- the saved tensors
  set oldT : List (String × Tensor) := st.optimVars.map fun p =>
    (p.1, ((st.getVar p.2).map Var.tensor).getD ⟨[], 0⟩) with holdT
  have hD1 : st1.optimVars = st.optimVars := update_optimVars h1
  have hC : ∀ q ∈ oldT, aget st.optimVars q.1 = some target →
      q.2 = w.tensor := by
    intro q hq hqres
    rw [holdT] at hq
    obtain ⟨⟨pn, pv⟩, hpmem, hpq⟩ := List.mem_map.mp hq
    cases hpq
    have : aget st.optimVars pn = some pv := aget_of_mem_nodup hnd hpmem
    rw [this] at hqres
    cases hqres
    simp [hw]
  have hresAll : ∀ q ∈ oldT, (aget st.optimVars q.1).isSome := by
    intro q hq
    rw [holdT] at hq
    obtain ⟨⟨pn, pv⟩, hpmem, hpq⟩ := List.mem_map.mp hq
    cases hpq
    exact aget_isSome_of_mem_keys (List.mem_map.mpr ⟨(pn, pv), hpmem, rfl⟩)
  have hE : ∃ q ∈ oldT, aget st.optimVars q.1 = some target := by
    refine ⟨(name, ((st.getVar target).map Var.tensor).getD ⟨[], 0⟩), ?_, hres⟩
    rw [holdT]
    exact List.mem_map.mpr ⟨(name, target), aget_eq_some_mem hres, rfl⟩
  have hsome1 : (st1.getVar target).isSome := by
    rw [update_isSome h1]; exact hsome
  have hmain := updateLoop_restores oldT st1 st2a hD1 hloop target w.tensor
    hC hresAll (Or.inl hE) hsome1
  have hfin : st2.getVar target = st2a.getVar target := by
    simp only [ObjState.getVar]
    rw [(resolveBatchSize_fields hresolve).1]
  rw [hfin, hmain, hw]
  rfl

/-- **C4** (counterexample): on the graph holding `cf1`, a temporary-update
`error` call that supplies a new tensor for the *auxiliary* variable `y`
returns successfully but leaves `y` holding the new tensor: the claim that
every registered variable is restored is false. -/
theorem C4_error_aux_not_restored :
    stF.error (some [("y", tB')]) false = .ok ([1], stC4) ∧
    (stF.getVar vY.vid).map Var.tensor = some tB ∧
    (stC4.getVar vY.vid).map Var.tensor = some tB' ∧
    tB ≠ tB' := ⟨rfl, rfl, rfl, by decide⟩

/-- Witness for the amended C4 theorem on the concrete graph `stF`: the
optimization variable `x` is restored. -/
theorem C4_error_restores_witness :
    ((stF.optimVars.map Prod.fst).Nodup ∧
      stF.error (some [("y", tB')]) false = .ok ([1], stC4)) ∧
    (stC4.getVar vX.vid).map Var.tensor = (stF.getVar vX.vid).map Var.tensor :=
  ⟨⟨by decide, rfl⟩,
    (C4_error_restores stF [("y", tB')] [1] stC4 (by decide) rfl).2
      "x" vX.vid rfl rfl⟩

/-! ## Lemmas about `aremove` and key sets -/

lemma aget_aremove_ne {α β : Type} [DecidableEq α] {d : List (α × β)} {k k' : α}
    (h : k' ≠ k) : aget (aremove d k) k' = aget d k' := by
  induction d with
  | nil => rfl
  | cons p rest ih =>
    obtain ⟨a, b⟩ := p
    by_cases h1 : k = a
    · subst h1; simp [aremove, aget, h]
    · by_cases h2 : k' = a <;> simp [aremove, aget, h1, h2, ih]

lemma aget_eq_none_of_not_mem_keys {α β : Type} [DecidableEq α] {d : List (α × β)}
    {k : α} (h : k ∉ d.map Prod.fst) : aget d k = none := by
  induction d with
  | nil => rfl
  | cons p rest ih =>
    obtain ⟨a, b⟩ := p
    simp only [List.map_cons, List.mem_cons, not_or] at h
    simp [aget, h.1, ih h.2]

lemma aget_aremove_self_nodup {α β : Type} [DecidableEq α] {d : List (α × β)} {k : α}
    (hnd : (d.map Prod.fst).Nodup) : aget (aremove d k) k = none := by
  induction d with
  | nil => rfl
  | cons p rest ih =>
    obtain ⟨a, b⟩ := p
    simp only [List.map_cons, List.nodup_cons] at hnd
    by_cases h1 : k = a
    · subst h1
      simp only [aremove, if_pos rfl]
      exact aget_eq_none_of_not_mem_keys hnd.1
    · simp [aremove, aget, h1, ih hnd.2]

lemma aget_aremove_of_none {α β : Type} [DecidableEq α] {d : List (α × β)} {k k' : α}
    (h : aget d k' = none) : aget (aremove d k) k' = none := by
  by_cases h1 : k' = k
  · subst h1
    induction d with
    | nil => rfl
    | cons p rest ih =>
      obtain ⟨a, b⟩ := p
      by_cases h2 : k' = a
      · subst h2; simp [aget] at h
      · simp only [aget, if_neg h2] at h
        simp [aremove, aget, h2, ih h]
  · rw [aget_aremove_ne h1]; exact h

lemma aremove_sublist {α β : Type} [DecidableEq α] (d : List (α × β)) (k : α) :
    (aremove d k).Sublist d := by
  induction d with
  | nil => simp [aremove]
  | cons p rest ih =>
    obtain ⟨a, b⟩ := p
    by_cases h1 : k = a
    · simp [aremove, h1]
    · simpa [aremove, h1] using ih

lemma aremove_keys_nodup {α β : Type} [DecidableEq α] {d : List (α × β)} (k : α)
    (hnd : (d.map Prod.fst).Nodup) : ((aremove d k).map Prod.fst).Nodup :=
  hnd.sublist (List.Sublist.map Prod.fst (aremove_sublist d k))

lemma mem_keys_aset {α β : Type} [DecidableEq α] {d : List (α × β)} {k k' : α} (v : β) :
    k' ∈ (aset d k v).map Prod.fst ↔ k' ∈ d.map Prod.fst ∨ k' = k := by
  induction d with
  | nil => simp [aset]
  | cons p rest ih =>
    obtain ⟨a, b⟩ := p
    by_cases h1 : k = a
    · subst h1; simp [aset]; tauto
    · simp [aset, h1, ih]; tauto

lemma aset_keys_nodup {α β : Type} [DecidableEq α] {d : List (α × β)} {k : α} (v : β)
    (hnd : (d.map Prod.fst).Nodup) : ((aset d k v).map Prod.fst).Nodup := by
  induction d with
  | nil => simp [aset]
  | cons p rest ih =>
    obtain ⟨a, b⟩ := p
    simp only [List.map_cons, List.nodup_cons] at hnd
    by_cases h1 : k = a
    · subst h1
      have hset : aset ((k, b) :: rest) k v = (k, v) :: rest := by simp [aset]
      rw [hset]
      simp only [List.map_cons, List.nodup_cons]
      exact ⟨hnd.1, hnd.2⟩
    · simp only [aset, if_neg h1, List.map_cons, List.nodup_cons]
      refine ⟨fun hmem => ?_, ih hnd.2⟩
      rcases (mem_keys_aset v).mp hmem with hmem | hmem
      · exact hnd.1 hmem
      · exact h1 hmem.symm

/-! ## Field and key preservation for `_erase_function_variables` -/

lemma eraseVarStep_fields {o c : Bool} {fn : FnRef} {st st' : ObjState} {v : Var}
    (h : st.eraseVarStep o c fn v = .ok st') :
    st'.cfsForWeights = st.cfsForWeights ∧ st'.costFunctions = st.costFunctions ∧
    st'.varStore = st.varStore ∧
    (o = true → st'.auxVars = st.auxVars ∧ st'.fnsForAuxVars = st.fnsForAuxVars) ∧
    (o = false → st'.optimVars = st.optimVars ∧ st'.cwOptimVars = st.cwOptimVars ∧
      st'.fnsForOptimVars = st.fnsForOptimVars) ∧
    (o = true ∧ c = true → st'.optimVars = st.optimVars) ∧
    (o = true ∧ c = false → st'.cwOptimVars = st.cwOptimVars) := by
  cases o <;> cases c <;>
    · simp only [ObjState.eraseVarStep, Bool.false_eq_true, if_true, if_false] at h
      repeat' split at h
      all_goals first | (cases h; simp) | cases h

lemma eraseVarStep_adjOptim_ne {o c : Bool} {fn : FnRef} {st st' : ObjState}
    {v : Var} {key : Nat} (hk : key ≠ v.vid)
    (h : st.eraseVarStep o c fn v = .ok st') :
    aget st'.fnsForOptimVars key = aget st.fnsForOptimVars key := by
  cases o <;> cases c <;>
    · simp only [ObjState.eraseVarStep, Bool.false_eq_true, if_true, if_false] at h
      repeat' split at h
      all_goals first
        | (cases h; simp [aget_aremove_ne hk, aget_aset_ne _ hk]) | cases h

lemma eraseVarStep_adjAux_ne {o c : Bool} {fn : FnRef} {st st' : ObjState}
    {v : Var} {key : Nat} (hk : key ≠ v.vid)
    (h : st.eraseVarStep o c fn v = .ok st') :
    aget st'.fnsForAuxVars key = aget st.fnsForAuxVars key := by
  cases o <;> cases c <;>
    · simp only [ObjState.eraseVarStep, Bool.false_eq_true, if_true, if_false] at h
      repeat' split at h
      all_goals first
        | (cases h; simp [aget_aremove_ne hk, aget_aset_ne _ hk]) | cases h

lemma eraseVarStep_optimD_ne {o c : Bool} {fn : FnRef} {st st' : ObjState}
    {v : Var} {nk : String} (hk : nk ≠ v.nameD)
    (h : st.eraseVarStep o c fn v = .ok st') :
    aget st'.optimVars nk = aget st.optimVars nk := by
  cases o <;> cases c <;>
    · simp only [ObjState.eraseVarStep, Bool.false_eq_true, if_true, if_false] at h
      repeat' split at h
      all_goals first | (cases h; simp [aget_aremove_ne hk]) | cases h

lemma eraseVarStep_auxD_ne {o c : Bool} {fn : FnRef} {st st' : ObjState}
    {v : Var} {nk : String} (hk : nk ≠ v.nameD)
    (h : st.eraseVarStep o c fn v = .ok st') :
    aget st'.auxVars nk = aget st.auxVars nk := by
  cases o <;> cases c <;>
    · simp only [ObjState.eraseVarStep, Bool.false_eq_true, if_true, if_false] at h
      repeat' split at h
      all_goals first | (cases h; simp [aget_aremove_ne hk]) | cases h

lemma eraseVarStep_adjOptim_none {o c : Bool} {fn : FnRef} {st st' : ObjState}
    {v : Var} {key : Nat} (hnone : aget st.fnsForOptimVars key = none)
    (h : st.eraseVarStep o c fn v = .ok st') :
    aget st'.fnsForOptimVars key = none := by
  by_cases hk : key = v.vid
  · subst hk
    cases o
    · rw [((eraseVarStep_fields h).2.2.2.2.1 rfl).2.2]; exact hnone
    · simp only [ObjState.eraseVarStep, if_true, hnone] at h
      cases h
  · rw [eraseVarStep_adjOptim_ne hk h]; exact hnone

lemma eraseVarStep_adjAux_none {o c : Bool} {fn : FnRef} {st st' : ObjState}
    {v : Var} {key : Nat} (hnone : aget st.fnsForAuxVars key = none)
    (h : st.eraseVarStep o c fn v = .ok st') :
    aget st'.fnsForAuxVars key = none := by
  by_cases hk : key = v.vid
  · subst hk
    cases o
    · simp only [ObjState.eraseVarStep, Bool.false_eq_true, if_false, hnone] at h
      cases h
    · rw [((eraseVarStep_fields h).2.2.2.1 rfl).2]; exact hnone
  · rw [eraseVarStep_adjAux_ne hk h]; exact hnone

lemma eraseVarStep_optimD_none {o c : Bool} {fn : FnRef} {st st' : ObjState}
    {v : Var} {nk : String} (hnone : aget st.optimVars nk = none)
    (h : st.eraseVarStep o c fn v = .ok st') :
    aget st'.optimVars nk = none := by
  cases o <;> cases c <;>
    · simp only [ObjState.eraseVarStep, Bool.false_eq_true, if_true, if_false] at h
      repeat' split at h
      all_goals first | (cases h; simp [aget_aremove_of_none hnone, hnone]) | cases h

lemma eraseVarStep_auxD_none {o c : Bool} {fn : FnRef} {st st' : ObjState}
    {v : Var} {nk : String} (hnone : aget st.auxVars nk = none)
    (h : st.eraseVarStep o c fn v = .ok st') :
    aget st'.auxVars nk = none := by
  cases o <;> cases c <;>
    · simp only [ObjState.eraseVarStep, Bool.false_eq_true, if_true, if_false] at h
      repeat' split at h
      all_goals first | (cases h; simp [aget_aremove_of_none hnone, hnone]) | cases h

lemma eraseVarStep_nodups {o c : Bool} {fn : FnRef} {st st' : ObjState} {v : Var}
    (h : st.eraseVarStep o c fn v = .ok st') :
    ((st.fnsForOptimVars.map Prod.fst).Nodup →
      (st'.fnsForOptimVars.map Prod.fst).Nodup) ∧
    ((st.fnsForAuxVars.map Prod.fst).Nodup →
      (st'.fnsForAuxVars.map Prod.fst).Nodup) ∧
    ((st.optimVars.map Prod.fst).Nodup → (st'.optimVars.map Prod.fst).Nodup) ∧
    ((st.auxVars.map Prod.fst).Nodup → (st'.auxVars.map Prod.fst).Nodup) := by
  cases o <;> cases c <;>
    · simp only [ObjState.eraseVarStep, Bool.false_eq_true, if_true, if_false] at h
      repeat' split at h
      all_goals first
        | (cases h
           refine ⟨fun hh => ?_, fun hh => ?_, fun hh => ?_, fun hh => ?_⟩ <;>
             first
               | exact hh
               | exact aremove_keys_nodup _ hh
               | exact aset_keys_nodup _ hh)
        | cases h

lemma eraseFnVars_fields {o c : Bool} {fn : FnRef} {vs : List Var} {st st' : ObjState}
    (h : st.eraseFnVars o c fn vs = .ok st') :
    st'.cfsForWeights = st.cfsForWeights ∧ st'.costFunctions = st.costFunctions ∧
    st'.varStore = st.varStore ∧
    (o = true → st'.auxVars = st.auxVars ∧ st'.fnsForAuxVars = st.fnsForAuxVars) ∧
    (o = false → st'.optimVars = st.optimVars ∧ st'.cwOptimVars = st.cwOptimVars ∧
      st'.fnsForOptimVars = st.fnsForOptimVars) ∧
    (o = true ∧ c = true → st'.optimVars = st.optimVars) := by
  induction vs generalizing st with
  | nil =>
    simp only [ObjState.eraseFnVars] at h
    cases h
    simp
  | cons w rest ih =>
    simp only [ObjState.eraseFnVars, bind_ok] at h
    obtain ⟨st1, h1, h2⟩ := h
    obtain ⟨a1, a2, a3, a4, a5, a6, _⟩ := eraseVarStep_fields h1
    obtain ⟨b1, b2, b3, b4, b5, b6⟩ := ih h2
    refine ⟨b1.trans a1, b2.trans a2, b3.trans a3, ?_, ?_, ?_⟩
    · intro ho
      exact ⟨(b4 ho).1.trans (a4 ho).1, (b4 ho).2.trans (a4 ho).2⟩
    · intro ho
      exact ⟨(b5 ho).1.trans (a5 ho).1, (b5 ho).2.1.trans (a5 ho).2.1,
        (b5 ho).2.2.trans (a5 ho).2.2⟩
    · intro ho
      exact (b6 ho).trans (a6 ho)

lemma eraseFnVars_adjOptim_none {o c : Bool} {fn : FnRef} {vs : List Var}
    {st st' : ObjState} {key : Nat} (hnone : aget st.fnsForOptimVars key = none)
    (h : st.eraseFnVars o c fn vs = .ok st') :
    aget st'.fnsForOptimVars key = none := by
  induction vs generalizing st with
  | nil => simp only [ObjState.eraseFnVars] at h; cases h; exact hnone
  | cons w rest ih =>
    simp only [ObjState.eraseFnVars, bind_ok] at h
    obtain ⟨st1, h1, h2⟩ := h
    exact ih (eraseVarStep_adjOptim_none hnone h1) h2

lemma eraseFnVars_optimD_none {o c : Bool} {fn : FnRef} {vs : List Var}
    {st st' : ObjState} {nk : String} (hnone : aget st.optimVars nk = none)
    (h : st.eraseFnVars o c fn vs = .ok st') :
    aget st'.optimVars nk = none := by
  induction vs generalizing st with
  | nil => simp only [ObjState.eraseFnVars] at h; cases h; exact hnone
  | cons w rest ih =>
    simp only [ObjState.eraseFnVars, bind_ok] at h
    obtain ⟨st1, h1, h2⟩ := h
    exact ih (eraseVarStep_optimD_none hnone h1) h2

lemma eraseFnVars_adjAux_none {o c : Bool} {fn : FnRef} {vs : List Var}
    {st st' : ObjState} {key : Nat} (hnone : aget st.fnsForAuxVars key = none)
    (h : st.eraseFnVars o c fn vs = .ok st') :
    aget st'.fnsForAuxVars key = none := by
  induction vs generalizing st with
  | nil => simp only [ObjState.eraseFnVars] at h; cases h; exact hnone
  | cons w rest ih =>
    simp only [ObjState.eraseFnVars, bind_ok] at h
    obtain ⟨st1, h1, h2⟩ := h
    exact ih (eraseVarStep_adjAux_none hnone h1) h2

lemma eraseFnVars_auxD_none {o c : Bool} {fn : FnRef} {vs : List Var}
    {st st' : ObjState} {nk : String} (hnone : aget st.auxVars nk = none)
    (h : st.eraseFnVars o c fn vs = .ok st') :
    aget st'.auxVars nk = none := by
  induction vs generalizing st with
  | nil => simp only [ObjState.eraseFnVars] at h; cases h; exact hnone
  | cons w rest ih =>
    simp only [ObjState.eraseFnVars, bind_ok] at h
    obtain ⟨st1, h1, h2⟩ := h
    exact ih (eraseVarStep_auxD_none hnone h1) h2

lemma eraseFnVars_adjOptim_ne {o c : Bool} {fn : FnRef} {vs : List Var}
    {st st' : ObjState} {key : Nat} (hk : ∀ w ∈ vs, key ≠ w.vid)
    (h : st.eraseFnVars o c fn vs = .ok st') :
    aget st'.fnsForOptimVars key = aget st.fnsForOptimVars key := by
  induction vs generalizing st with
  | nil => simp only [ObjState.eraseFnVars] at h; cases h; rfl
  | cons w rest ih =>
    simp only [ObjState.eraseFnVars, bind_ok] at h
    obtain ⟨st1, h1, h2⟩ := h
    rw [ih (fun u hu => hk u (by simp [hu])) h2,
      eraseVarStep_adjOptim_ne (hk w (by simp)) h1]

lemma eraseFnVars_adjAux_ne {o c : Bool} {fn : FnRef} {vs : List Var}
    {st st' : ObjState} {key : Nat} (hk : ∀ w ∈ vs, key ≠ w.vid)
    (h : st.eraseFnVars o c fn vs = .ok st') :
    aget st'.fnsForAuxVars key = aget st.fnsForAuxVars key := by
  induction vs generalizing st with
  | nil => simp only [ObjState.eraseFnVars] at h; cases h; rfl
  | cons w rest ih =>
    simp only [ObjState.eraseFnVars, bind_ok] at h
    obtain ⟨st1, h1, h2⟩ := h
    rw [ih (fun u hu => hk u (by simp [hu])) h2,
      eraseVarStep_adjAux_ne (hk w (by simp)) h1]

lemma eraseFnVars_optimD_ne {o c : Bool} {fn : FnRef} {vs : List Var}
    {st st' : ObjState} {nk : String} (hk : ∀ w ∈ vs, nk ≠ w.nameD)
    (h : st.eraseFnVars o c fn vs = .ok st') :
    aget st'.optimVars nk = aget st.optimVars nk := by
  induction vs generalizing st with
  | nil => simp only [ObjState.eraseFnVars] at h; cases h; rfl
  | cons w rest ih =>
    simp only [ObjState.eraseFnVars, bind_ok] at h
    obtain ⟨st1, h1, h2⟩ := h
    rw [ih (fun u hu => hk u (by simp [hu])) h2,
      eraseVarStep_optimD_ne (hk w (by simp)) h1]

lemma eraseFnVars_nodups {o c : Bool} {fn : FnRef} {vs : List Var} {st st' : ObjState}
    (h : st.eraseFnVars o c fn vs = .ok st') :
    ((st.fnsForOptimVars.map Prod.fst).Nodup →
      (st'.fnsForOptimVars.map Prod.fst).Nodup) ∧
    ((st.fnsForAuxVars.map Prod.fst).Nodup →
      (st'.fnsForAuxVars.map Prod.fst).Nodup) ∧
    ((st.optimVars.map Prod.fst).Nodup → (st'.optimVars.map Prod.fst).Nodup) ∧
    ((st.auxVars.map Prod.fst).Nodup → (st'.auxVars.map Prod.fst).Nodup) := by
  induction vs generalizing st with
  | nil => simp only [ObjState.eraseFnVars] at h; cases h; exact ⟨id, id, id, id⟩
  | cons w rest ih =>
    simp only [ObjState.eraseFnVars, bind_ok] at h
    obtain ⟨st1, h1, h2⟩ := h
    obtain ⟨a1, a2, a3, a4⟩ := eraseVarStep_nodups h1
    obtain ⟨b1, b2, b3, b4⟩ := ih h2
    exact ⟨fun hh => b1 (a1 hh), fun hh => b2 (a2 hh),
      fun hh => b3 (a3 hh), fun hh => b4 (a4 hh)⟩

/-- Erasing the last function from a variable adjacency list removes both
the adjacency entry and the variable registration (optimization variant). -/
lemma eraseVarStep_sole_optim {fn : FnRef} {st : ObjState} {v : Var}
    (hadj : aget st.fnsForOptimVars v.vid = some [fn]) :
    st.eraseVarStep true false fn v =
      .ok { st with fnsForOptimVars := aremove st.fnsForOptimVars v.vid,
                    optimVars := aremove st.optimVars v.nameD } := by
  simp [ObjState.eraseVarStep, hadj, removeFirst]

/-- Auxiliary variant of `eraseVarStep_sole_optim`. -/
lemma eraseVarStep_sole_aux {c : Bool} {fn : FnRef} {st : ObjState} {v : Var}
    (hadj : aget st.fnsForAuxVars v.vid = some [fn]) :
    st.eraseVarStep false c fn v =
      .ok { st with fnsForAuxVars := aremove st.fnsForAuxVars v.vid,
                    auxVars := aremove st.auxVars v.nameD } := by
  simp [ObjState.eraseVarStep, hadj, removeFirst]

/-- Erasing one of several functions from a variable adjacency list only
shortens the list; the variable stays registered. -/
lemma eraseVarStep_shared_optim {fn : FnRef} {st : ObjState} {v : Var}
    {fns : List FnRef} (hadj : aget st.fnsForOptimVars v.vid = some fns)
    (hmem : fn ∈ fns) (hne : removeFirst fns fn ≠ []) :
    st.eraseVarStep true false fn v =
      .ok { st with
        fnsForOptimVars := aset st.fnsForOptimVars v.vid (removeFirst fns fn) } := by
  simp [ObjState.eraseVarStep, hadj, hmem, hne]

/-- A full `_erase_function_variables` pass over `l₁ ++ v :: l₂` deletes a
variable `v` whose only reference is the function being erased
(optimization variant). -/
lemma eraseFnVars_removes_optim {fn : FnRef} {v : Var} {l₂ : List Var} :
    ∀ (l₁ : List Var) (st st' : ObjState),
      (st.fnsForOptimVars.map Prod.fst).Nodup →
      (st.optimVars.map Prod.fst).Nodup →
      (∀ w ∈ l₁, w.vid ≠ v.vid) →
      aget st.fnsForOptimVars v.vid = some [fn] →
      st.eraseFnVars true false fn (l₁ ++ v :: l₂) = .ok st' →
      aget st'.optimVars v.nameD = none ∧ aget st'.fnsForOptimVars v.vid = none := by
  intro l₁
  induction l₁ with
  | nil =>
    intro st st' hnd1 hnd2 _ hadj h
    simp only [List.nil_append, ObjState.eraseFnVars, bind_ok] at h
    obtain ⟨st1, h1, h2⟩ := h
    rw [eraseVarStep_sole_optim hadj, Except.ok.injEq] at h1
    subst h1
    constructor
    · exact eraseFnVars_optimD_none (aget_aremove_self_nodup hnd2) h2
    · exact eraseFnVars_adjOptim_none (aget_aremove_self_nodup hnd1) h2
  | cons w l₁ ih =>
    intro st st' hnd1 hnd2 hdist hadj h
    simp only [List.cons_append, ObjState.eraseFnVars, bind_ok] at h
    obtain ⟨st1, h1, h2⟩ := h
    have hvidne : v.vid ≠ w.vid := fun hh => (hdist w (by simp)) hh.symm
    obtain ⟨n1, n2, n3, n4⟩ := eraseVarStep_nodups h1
    refine ih st1 st' (n1 hnd1) (n3 hnd2)
      (fun u hu => hdist u (by simp [hu])) ?_ h2
    rw [eraseVarStep_adjOptim_ne hvidne h1]
    exact hadj

/-- Auxiliary variant of `eraseFnVars_removes_optim`. -/
lemma eraseFnVars_removes_aux {c : Bool} {fn : FnRef} {v : Var} {l₂ : List Var} :
    ∀ (l₁ : List Var) (st st' : ObjState),
      (st.fnsForAuxVars.map Prod.fst).Nodup →
      (st.auxVars.map Prod.fst).Nodup →
      (∀ w ∈ l₁, w.vid ≠ v.vid) →
      aget st.fnsForAuxVars v.vid = some [fn] →
      st.eraseFnVars false c fn (l₁ ++ v :: l₂) = .ok st' →
      aget st'.auxVars v.nameD = none ∧ aget st'.fnsForAuxVars v.vid = none := by
  intro l₁
  induction l₁ with
  | nil =>
    intro st st' hnd1 hnd2 _ hadj h
    simp only [List.nil_append, ObjState.eraseFnVars, bind_ok] at h
    obtain ⟨st1, h1, h2⟩ := h
    rw [eraseVarStep_sole_aux hadj, Except.ok.injEq] at h1
    subst h1
    constructor
    · exact eraseFnVars_auxD_none (aget_aremove_self_nodup hnd2) h2
    · exact eraseFnVars_adjAux_none (aget_aremove_self_nodup hnd1) h2
  | cons w l₁ ih =>
    intro st st' hnd1 hnd2 hdist hadj h
    simp only [List.cons_append, ObjState.eraseFnVars, bind_ok] at h
    obtain ⟨st1, h1, h2⟩ := h
    have hvidne : v.vid ≠ w.vid := fun hh => (hdist w (by simp)) hh.symm
    obtain ⟨n1, n2, n3, n4⟩ := eraseVarStep_nodups h1
    refine ih st1 st' (n2 hnd1) (n4 hnd2)
      (fun u hu => hdist u (by simp [hu])) ?_ h2
    rw [eraseVarStep_adjAux_ne hvidne h1]
    exact hadj

/-- A full `_erase_function_variables` pass leaves a variable registered
when its adjacency list keeps at least one other function. -/
lemma eraseFnVars_keeps_optim {fn : FnRef} {v : Var} {l₂ : List Var}
    {fns : List FnRef} :
    ∀ (l₁ : List Var) (st st' : ObjState),
      (∀ w ∈ l₁ ++ l₂, v.vid ≠ w.vid ∧ v.nameD ≠ w.nameD) →
      aget st.fnsForOptimVars v.vid = some fns →
      fn ∈ fns → removeFirst fns fn ≠ [] →
      st.eraseFnVars true false fn (l₁ ++ v :: l₂) = .ok st' →
      aget st'.optimVars v.nameD = aget st.optimVars v.nameD := by
  intro l₁
  induction l₁ with
  | nil =>
    intro st st' hdist hadj hmem hne h
    simp only [List.nil_append, ObjState.eraseFnVars, bind_ok] at h
    obtain ⟨st1, h1, h2⟩ := h
    rw [eraseVarStep_shared_optim hadj hmem hne, Except.ok.injEq] at h1
    have hopt : st1.optimVars = st.optimVars := by rw [← h1]
    have hres := eraseFnVars_optimD_ne (fun w hw => (hdist w (by simp [hw])).2) h2
    rw [hres, hopt]
  | cons w l₁ ih =>
    intro st st' hdist hadj hmem hne h
    simp only [List.cons_append, ObjState.eraseFnVars, bind_ok] at h
    obtain ⟨st1, h1, h2⟩ := h
    have hd := hdist w (by simp)
    have hadj1 : aget st1.fnsForOptimVars v.vid = some fns := by
      rw [eraseVarStep_adjOptim_ne hd.1 h1]
      exact hadj
    rw [ih st1 st' (fun u hu => hdist u (by revert hu; simp; tauto)) hadj1 hmem hne h2,
      eraseVarStep_optimD_ne hd.2 h1]

/-- **C6** Cascade deletion: (1) erasing the sole cost function referencing
an optimization variable removes that variable from the graph registry;
(2) erasing one of several cost functions sharing a variable leaves the
variable registered; (3) once the last cost function using a cost weight is
erased, a weight variable whose only reference is that weight is removed
from the registry as well. -/
theorem C6_cascade_delete :
    (∀ (st : ObjState) (n : String) (cf : CF) (v : Var) (l₁ l₂ : List Var)
        (st' : ObjState),
      (st.fnsForOptimVars.map Prod.fst).Nodup →
      (st.optimVars.map Prod.fst).Nodup →
      aget st.costFunctions n = some cf →
      cf.optimVars = l₁ ++ v :: l₂ →
      (∀ w ∈ l₁, w.vid ≠ v.vid) →
      aget st.fnsForOptimVars v.vid = some [.cf cf.cfid] →
      st.eraseCF n = .ok st' →
      aget st'.optimVars v.nameD = none) ∧
    (∀ (st : ObjState) (n : String) (cf : CF) (v : Var) (l₁ l₂ : List Var)
        (fns : List FnRef) (st' : ObjState),
      aget st.costFunctions n = some cf →
      cf.optimVars = l₁ ++ v :: l₂ →
      (∀ w ∈ l₁ ++ l₂, v.vid ≠ w.vid ∧ v.nameD ≠ w.nameD) →
      aget st.fnsForOptimVars v.vid = some fns →
      FnRef.cf cf.cfid ∈ fns →
      removeFirst fns (.cf cf.cfid) ≠ [] →
      st.eraseCF n = .ok st' →
      aget st'.optimVars v.nameD = aget st.optimVars v.nameD) ∧
    (∀ (st : ObjState) (n : String) (cf : CF) (w : Var) (l₁ l₂ : List Var)
        (st' : ObjState),
      (st.fnsForAuxVars.map Prod.fst).Nodup →
      (st.auxVars.map Prod.fst).Nodup →
      aget st.costFunctions n = some cf →
      aget st.cfsForWeights cf.weight.wid = some [cf.cfid] →
      cf.weight.auxVars = l₁ ++ w :: l₂ →
      (∀ u ∈ l₁, u.vid ≠ w.vid) →
      (∀ u ∈ cf.auxVars, w.vid ≠ u.vid) →
      aget st.fnsForAuxVars w.vid = some [.cw cf.weight.wid] →
      st.eraseCF n = .ok st' →
      aget st'.auxVars w.nameD = none) := by
  refine ⟨?part1, ?part2, ?part3⟩
  case part1 =>
    intro st n cf v l₁ l₂ st' hnd1 hnd2 hcf hsplit hdist hadj h
    simp only [ObjState.eraseCF, hcf, bind_ok] at h
    obtain ⟨st1, h1, st2, h2, hrest⟩ := h
    rw [hsplit] at h1
    obtain ⟨hnoneD, hnoneAdj⟩ :=
      eraseFnVars_removes_optim l₁ _ st1 (by exact hnd1) (by exact hnd2) hdist
        (by exact hadj) h1
    -- the auxiliary phase leaves the optimization containers untouched
    have hD2 : aget st2.optimVars v.nameD = none := by
      rw [((eraseFnVars_fields h2).2.2.2.2.1 rfl).1]
      exact hnoneD
    have hA2 : aget st2.fnsForOptimVars v.vid = none := by
      rw [((eraseFnVars_fields h2).2.2.2.2.1 rfl).2.2]
      exact hnoneAdj
    -- weight bookkeeping and optional weight-variable cleanup
    split at hrest
    · cases hrest
    · split at hrest
      · rw [bind_ok] at hrest
        obtain ⟨st4, h41, h42⟩ := hrest
        rw [Except.ok.injEq] at h42
        subst h42
        show aget st4.optimVars v.nameD = none
        split at h41
        · simp only [bind_ok] at h41
          obtain ⟨st5, h51, st6, h61, h62⟩ := h41
          rw [Except.ok.injEq] at h62
          subst h62
          show aget st6.optimVars v.nameD = none
          have hD5 : aget st5.optimVars v.nameD = none := by
            rw [(eraseFnVars_fields h51).2.2.2.2.2 ⟨rfl, rfl⟩]
            exact hD2
          rw [((eraseFnVars_fields h61).2.2.2.2.1 rfl).1]
          exact hD5
        · rw [Except.ok.injEq] at h41
          subst h41
          exact hD2
      · cases hrest
  case part2 =>
    intro st n cf v l₁ l₂ fns st' hcf hsplit hdist hadj hmem hne h
    simp only [ObjState.eraseCF, hcf, bind_ok] at h
    obtain ⟨st1, h1, st2, h2, hrest⟩ := h
    rw [hsplit] at h1
    have hkeep : aget st1.optimVars v.nameD = aget st.optimVars v.nameD := by
      have hh := eraseFnVars_keeps_optim l₁ _ st1 hdist (by exact hadj) hmem hne h1
      exact hh
    have hD2 : aget st2.optimVars v.nameD = aget st.optimVars v.nameD := by
      rw [((eraseFnVars_fields h2).2.2.2.2.1 rfl).1]
      exact hkeep
    split at hrest
    · cases hrest
    · split at hrest
      · rw [bind_ok] at hrest
        obtain ⟨st4, h41, h42⟩ := hrest
        rw [Except.ok.injEq] at h42
        subst h42
        show aget st4.optimVars v.nameD = aget st.optimVars v.nameD
        split at h41
        · simp only [bind_ok] at h41
          obtain ⟨st5, h51, st6, h61, h62⟩ := h41
          rw [Except.ok.injEq] at h62
          subst h62
          show aget st6.optimVars v.nameD = aget st.optimVars v.nameD
          have hD5 : aget st5.optimVars v.nameD = aget st.optimVars v.nameD := by
            rw [(eraseFnVars_fields h51).2.2.2.2.2 ⟨rfl, rfl⟩]
            exact hD2
          rw [((eraseFnVars_fields h61).2.2.2.2.1 rfl).1]
          exact hD5
        · rw [Except.ok.injEq] at h41
          subst h41
          exact hD2
      · cases hrest
  case part3 =>
    intro st n cf w l₁ l₂ st' hnd1 hnd2 hcf hwcfs hsplit hdist hdistcf hadj h
    simp only [ObjState.eraseCF, hcf, bind_ok] at h
    obtain ⟨st1, h1, st2, h2, hrest⟩ := h
    -- the optimization phase leaves the auxiliary containers untouched
    have f1 := eraseFnVars_fields h1
    have hadj1 : aget st1.fnsForAuxVars w.vid = some [.cw cf.weight.wid] := by
      rw [(f1.2.2.2.1 rfl).2]
      exact hadj
    have hnd1a : (st1.fnsForAuxVars.map Prod.fst).Nodup := by
      rw [(f1.2.2.2.1 rfl).2]
      exact hnd1
    have hnd2a : (st1.auxVars.map Prod.fst).Nodup := by
      rw [(f1.2.2.2.1 rfl).1]
      exact hnd2
    -- the cost-function auxiliary phase touches other vids only
    have hadj2 : aget st2.fnsForAuxVars w.vid = some [.cw cf.weight.wid] := by
      rw [eraseFnVars_adjAux_ne hdistcf h2]
      exact hadj1
    obtain ⟨_, m2, _, m4⟩ := eraseFnVars_nodups h2
    have hnd1b := m2 hnd1a
    have hnd2b := m4 hnd2a
    -- the weight is down to its last cost function: the lookup yields [cf.cfid]
    have hw2 : aget st2.cfsForWeights cf.weight.wid = some [cf.cfid] := by
      rw [f1.1.symm.trans (eraseFnVars_fields h2).1.symm] at hwcfs
      exact hwcfs
    rw [hw2] at hrest
    simp only [List.mem_cons, List.not_mem_nil, or_false, eq_self_iff_true,
      if_true, removeFirst, bind_ok] at hrest
    obtain ⟨st4, ⟨st5, h51, st6, h61, h62⟩, h42⟩ := hrest
    rw [Except.ok.injEq] at h42
    subst h42
    show aget st4.auxVars w.nameD = none
    rw [Except.ok.injEq] at h62
    subst h62
    show aget st6.auxVars w.nameD = none
    -- the weight optimization phase leaves the auxiliary containers untouched
    have f5 := eraseFnVars_fields h51
    have hadj5 : aget st5.fnsForAuxVars w.vid = some [.cw cf.weight.wid] := by
      rw [(f5.2.2.2.1 rfl).2]
      exact hadj2
    have hnd1c : (st5.fnsForAuxVars.map Prod.fst).Nodup := by
      rw [(f5.2.2.2.1 rfl).2]
      exact hnd1b
    have hnd2c : (st5.auxVars.map Prod.fst).Nodup := by
      rw [(f5.2.2.2.1 rfl).1]
      exact hnd2b
    rw [hsplit] at h61
    exact (eraseFnVars_removes_aux l₁ st5 st6 hnd1c hnd2c hdist hadj5 h61).1

/-- Witness for C6 on concrete graphs: erasing `f` from the graph holding
only `f` removes `x`; erasing `f` from the graph holding `f` and `g` (which
share `x`) keeps `x`; erasing `h` (the only user of weight `w3`) removes the
weight-registered auxiliary `wv`. -/
theorem C6_cascade_delete_witness :
    aget (okStateD (stF.eraseCF "f")).optimVars "x" = none ∧
    aget (okStateD (stFG.eraseCF "f")).optimVars "x" = aget stFG.optimVars "x" ∧
    aget (okStateD (stH.eraseCF "h")).auxVars "wv" = none := by
  refine ⟨?_, ?_, ?_⟩
  · exact C6_cascade_delete.1 stF "f" cf1 vX [] [] _ (by decide) (by decide)
      rfl rfl (by simp) rfl rfl
  · exact C6_cascade_delete.2.1 stFG "f" cf1 vX [] [] [.cf 1, .cf 3] _
      rfl rfl (by simp) rfl (by decide) (by decide) rfl
  · exact C6_cascade_delete.2.2 stH "h" cf3 vWv [] [] _ (by decide) (by decide)
      rfl rfl rfl (by simp) (by simp [cf3]) rfl rfl

/-! ## Lemmas about the Gaussian-on-manifold transforms -/

lemma detQ_eq_det : ∀ (n : ℕ) (A : Matrix (Fin n) (Fin n) ℚ), detQ n A = A.det
  | 0, A => by simp [detQ, Matrix.det_fin_zero]
  | n + 1, A => by
      rw [Matrix.det_succ_row_zero, detQ]
      exact Finset.sum_congr rfl fun j _ => by rw [detQ_eq_det n]

lemma adjQ_eq_adjugate {n : ℕ} (A : Matrix (Fin n) (Fin n) ℚ) : adjQ A = A.adjugate := by
  funext i j
  rw [adjQ, detQ_eq_det, Matrix.adjugate_apply]

lemma torchInverse_eq_inv {n : ℕ} (A : Matrix (Fin n) (Fin n) ℚ) : torchInverse A = A⁻¹ := by
  rw [torchInverse, detQ_eq_det, adjQ_eq_adjugate, Matrix.inv_def, Ring.inverse_eq_inv]

lemma conj_inv_cancel {n : ℕ} (A L : Matrix (Fin n) (Fin n) ℚ) (h : IsUnit A.det) :
    Aᵀ * ((torchInverse A)ᵀ * L * torchInverse A) * A = L := by
  rw [torchInverse_eq_inv, Matrix.transpose_nonsing_inv]
  have h1 : Aᵀ * (Aᵀ)⁻¹ = 1 := Matrix.mul_nonsing_inv _ (by rwa [Matrix.det_transpose])
  have h2 : A⁻¹ * A = 1 := Matrix.nonsing_inv_mul _ h
  calc Aᵀ * ((Aᵀ)⁻¹ * L * A⁻¹) * A
      = (Aᵀ * (Aᵀ)⁻¹) * (L * (A⁻¹ * A)) := by simp only [Matrix.mul_assoc]
    _ = L := by rw [h1, h2, one_mul, mul_one]

lemma zipWith_local_retract {P : Type} {d : ℕ} (ops : ManifoldOps P d)
    (hlr : ∀ p t, ops.localTo p (ops.retractTo p t) = t) :
    ∀ (var : List P) (m : List (Fin d → ℚ)), m.length ≤ var.length →
      List.zipWith ops.localTo var (List.zipWith ops.retractTo var m) = m := by
  intro var
  induction var with
  | nil =>
    intro m h
    rw [List.length_nil, Nat.le_zero, List.length_eq_zero] at h
    subst h
    rfl
  | cons v vs ih =>
    intro m h
    cases m with
    | nil => rfl
    | cons x xs =>
      simp only [List.zipWith_cons_cons, hlr v x]
      rw [ih xs (by simpa using h)]

lemma zipWith_conj_roundtrip {P : Type} {d : ℕ} (ops : ManifoldOps P d) :
    ∀ (ms : List (Fin d → ℚ)) (ls : List (Matrix (Fin d) (Fin d) ℚ)),
      (∀ m ∈ ms, IsUnit (ops.expJac m).det) → ls.length ≤ ms.length →
      List.zipWith (fun J lam => Jᵀ * lam * J) (ms.map ops.expJac)
        (List.zipWith (fun (iJ : Matrix (Fin d) (Fin d) ℚ) lam => iJᵀ * lam * iJ)
          ((ms.map ops.expJac).map torchInverse) ls) = ls := by
  intro ms
  induction ms with
  | nil =>
    intro ls _ h
    rw [List.length_nil, Nat.le_zero, List.length_eq_zero] at h
    subst h
    rfl
  | cons m ms ih =>
    intro ls hinv h
    cases ls with
    | nil => rfl
    | cons l ls' =>
      simp only [List.map_cons, List.zipWith_cons_cons]
      rw [conj_inv_cancel _ _ (hinv m (by simp)),
        ih ls' (fun x hx => hinv x (List.mem_cons_of_mem _ hx)) (by simpa using h)]

/-- **C7**: composing `retract_gaussian` at base point `var` with
`local_gaussian` at the same base point reproduces the tangent-space Gaussian
`(mean_tp, precision_tp)` exactly, whenever the manifold's `local`/`retract`
pair is exact and the exponential-map jacobian at each tangent mean is
invertible. -/
theorem C7_gaussian_transforms_inverse {P : Type} {d : ℕ} (ops : ManifoldOps P d)
    (var : List P) (meanTp : List (Fin d → ℚ))
    (precTp : List (Matrix (Fin d) (Fin d) ℚ))
    (hlr : ∀ p t, ops.localTo p (ops.retractTo p t) = t)
    (hinv : ∀ m ∈ meanTp, IsUnit (ops.expJac m).det)
    (h1 : meanTp.length ≤ var.length) (h2 : precTp.length ≤ meanTp.length) :
    localGaussian ops (retractGaussian ops meanTp precTp var) var true
      = (meanTp, precTp) := by
  simp only [localGaussian, retractGaussian, if_true, List.map_map]
  rw [zipWith_local_retract ops hlr var meanTp h1]
  rw [← List.map_map]
  rw [zipWith_conj_roundtrip ops meanTp precTp hinv h2]

/-- Witness for C7 on the translation group on `ℚ`. -/
theorem C7_gaussian_transforms_inverse_witness :
    localGaussian QOps (retractGaussian QOps [fun _ => (2 : ℚ)] [!![(3 : ℚ)]] [(0 : ℚ)])
      [(0 : ℚ)] true = ([fun _ => (2 : ℚ)], [!![(3 : ℚ)]]) :=
  C7_gaussian_transforms_inverse QOps [(0 : ℚ)] [fun _ => (2 : ℚ)] [!![(3 : ℚ)]]
    (fun p t => by
      funext i
      have hi : i = 0 := Subsingleton.elim i 0
      subst hi
      simp only [QOps]
      ring)
    (fun m _ => by simp [QOps])
    (by simp) (by simp)

/-! ## Lemmas about the zero-precision guards -/

lemma compMess_getD {P : Type} {d e k : ℕ} (ops : ManifoldOps P d)
    (fac : GFactor P d k) (cf : CFCap P d e k)
    (vtof ftov : List (MGauss P d)) (damping : List ℚ) (v : Fin k) :
    (fac.compMess ops cf vtof ftov damping).getD (v : ℕ) ⟨[], []⟩ =
      compMessAt ops fac cf vtof ftov damping v := by
  unfold GFactor.compMess
  rw [List.getD_eq_getElem?_getD, List.getElem?_map,
    List.getElem?_eq_getElem (by simp)]
  simp [List.getElem_finRange]

lemma compMessAt_zeroLam {P : Type} {d e k : ℕ} (ops : ManifoldOps P d)
    (fac : GFactor P d k) (cf : CFCap P d e k)
    (vtof ftov : List (MGauss P d)) (damping : List ℚ) (v : Fin k)
    (h : schurOutLam ops fac vtof v = 0) :
    compMessAt ops fac cf vtof ftov damping v =
      ⟨(cf.vals.getD (v : ℕ) []).map (fun _ => ops.zeroP),
       (cf.vals.getD (v : ℕ) []).map (fun _ => 0)⟩ := by
  simp [compMessAt, h]

/-- **C8**: a zero aggregate precision never reaches a matrix inversion: the
belief is left unchanged by the variable-to-factor pass when the summed
incoming precision `lam_tau` is zero, the outgoing variable-to-factor message
of an edge whose leave-one-out precision `lam_a` is zero has zero-data mean
and precision `lam_a`, and the outgoing factor-to-variable message of
`Factor.comp_mess` is a fresh zero-mean zero-precision Gaussian whenever the
Schur-complement precision is zero. -/
theorem C8_zero_precision_guard {P : Type} {d e : ℕ} (ops : ManifoldOps P d) :
    (∀ (msgs : List (MGauss P d)) (var : List P) (vtofOld : List (MGauss P d))
        (belief : MGauss P d) (ub : Bool),
      aggregateLam ops msgs var = List.replicate var.length 0 →
      (passVarToFacOneVar ops msgs var vtofOld belief ub).2 = belief) ∧
    (∀ (msgs : List (MGauss P d)) (var : List P) (vtofOld : List (MGauss P d))
        (belief : MGauss P d) (ub : Bool) (ix : ℕ), ix < msgs.length →
      leaveOneOutLam ops msgs var ix = List.replicate var.length 0 →
      (passVarToFacOneVar ops msgs var vtofOld belief ub).1.getD ix ⟨[], []⟩ =
        ⟨((vtofOld.getD ix ⟨[], []⟩).mean).map (fun _ => ops.zeroP),
         List.replicate var.length 0⟩) ∧
    (∀ {k : ℕ} (fac : GFactor P d k) (cf : CFCap P d e k)
        (vtof ftov : List (MGauss P d)) (damping : List ℚ) (v : Fin k),
      schurOutLam ops fac vtof v = 0 →
      (fac.compMess ops cf vtof ftov damping).getD (v : ℕ) ⟨[], []⟩ =
        ⟨(cf.vals.getD (v : ℕ) []).map (fun _ => ops.zeroP),
         (cf.vals.getD (v : ℕ) []).map (fun _ => 0)⟩) := by
  refine ⟨?_, ?_, ?_⟩
  · intro msgs var vtofOld belief ub h
    simp only [passVarToFacOneVar]
    rw [if_neg (by simp [h])]
  · intro msgs var vtofOld belief ub ix hix h
    simp only [passVarToFacOneVar]
    rw [List.getD_eq_getElem?_getD, List.getElem?_map, List.getElem?_range hix]
    simp only [Option.map_some', Option.getD_some]
    rw [if_pos h, h]
  · intro k fac cf vtof ftov damping v h
    rw [compMess_getD]
    exact compMessAt_zeroLam ops fac cf vtof ftov damping v h

/-- Witness for C8 on a batch-1 instance: a single zero incoming message and
a zero-potential single-variable factor. -/
theorem C8_zero_precision_guard_witness :
    (passVarToFacOneVar QOps [mgZero] [(0 : ℚ)] [mgPrev] mgPrev true).2 = mgPrev ∧
    (passVarToFacOneVar QOps [mgZero] [(0 : ℚ)] [mgPrev] mgPrev true).1.getD 0 ⟨[], []⟩ =
      ⟨(mgPrev.mean).map (fun _ => QOps.zeroP), List.replicate 1 0⟩ ∧
    (GFactor.compMess QOps facZ cfcZ [mgZero] [mgPrev] [0]).getD 0 ⟨[], []⟩ =
      ⟨(cfcZ.vals.getD 0 []).map (fun _ => QOps.zeroP),
       (cfcZ.vals.getD 0 []).map (fun _ => 0)⟩ := by
  have hagg : aggregateLam QOps [mgZero] [(0 : ℚ)] =
      List.replicate ([(0 : ℚ)]).length 0 := by
    simp [aggregateLam, incomingLams, edgeSum, localGaussian, mgZero, QOps, List.replicate]
  have hloo : leaveOneOutLam QOps [mgZero] [(0 : ℚ)] 0 =
      List.replicate ([(0 : ℚ)]).length 0 := by
    simp [leaveOneOutLam, incomingLams, edgeSum, localGaussian, mgZero, QOps, List.replicate]
  have hsch : schurOutLam QOps facZ [mgZero] (0 : Fin 1) = 0 := by
    have hlamF : (factorProduct0 QOps facZ [mgZero] (0 : Fin 1)).2 = 0 := by
      simp [factorProduct0, msgProduct, facZ, List.finRange_succ_eq_map, List.finRange_zero]
    ext i j
    simp [schurOutLam, hlamF, blockOO, blockONO, blockNOO, blockNONO,
      Matrix.mul_apply, Matrix.sub_apply]
  exact ⟨(@C8_zero_precision_guard ℚ 1 1 QOps).1 [mgZero] [(0 : ℚ)] [mgPrev] mgPrev true hagg,
    (@C8_zero_precision_guard ℚ 1 1 QOps).2.1 [mgZero] [(0 : ℚ)] [mgPrev] mgPrev true 0 (by decide) hloo,
    (@C8_zero_precision_guard ℚ 1 1 QOps).2.2 facZ cfcZ [mgZero] [mgPrev] [0] 0 hsch⟩

/-- **C1** fails in the code: `_pass_fac_to_var_messages` never reads its
`schedule` argument, so the pass computes the same result for any two
schedules; in particular, with the all-`false` schedule (no active edge) the
only factor-to-variable message is still overwritten — here the previous
message `mgPrev` is replaced by the fresh zero message — where the claim
requires an edge whose schedule entry is false to keep its previous
message. -/
theorem C1_schedule_ignored :
    (∀ (P : Type) (d e : ℕ) (ops : ManifoldOps P d) (packs : List (FactorPack P d e))
        (vtof ftov : List (MGauss P d)) (s₁ s₂ : List Bool) (damping : List ℚ),
      passFacToVarMessages ops packs vtof ftov s₁ damping =
        passFacToVarMessages ops packs vtof ftov s₂ damping) ∧
    (passFacToVarMessages QOps [packZ] [mgZero] [mgPrev] [false] [0]).1 =
      [⟨[0], [0]⟩] ∧
    mgPrev ≠ (⟨[0], [0]⟩ : MGauss ℚ 1) := by
  refine ⟨?_, ?_, ?_⟩
  · intro P d e ops packs
    induction packs with
    | nil => intro vtof ftov s₁ s₂ damping; rfl
    | cons p rest ih =>
      intro vtof ftov s₁ s₂ damping
      simp only [passFacToVarMessages]
      rw [ih (vtof.drop p.k) (ftov.drop p.k) s₁ s₂ (damping.drop p.k)]
  · have hsch1 : schurOutLam QOps (GFactor.linearize QOps facZ cfcZ true)
        [mgZero] (0 : Fin 1) = 0 := by
      have hlamF : (factorProduct0 QOps (GFactor.linearize QOps facZ cfcZ true)
          [mgZero] (0 : Fin 1)).2 = 0 := by
        ext i j
        simp [factorProduct0, msgProduct, GFactor.linearize, hcatJac, facZ, cfcZ,
          List.finRange_succ_eq_map, List.finRange_zero, Matrix.mul_apply]
      ext i j
      simp [schurOutLam, hlamF, blockOO, blockONO, blockNOO, blockNONO,
        Matrix.mul_apply, Matrix.sub_apply]
    simp only [passFacToVarMessages, packZ, List.take_succ_cons, List.take_zero,
      List.take_nil, List.drop_succ_cons, List.drop_nil, List.append_nil]
    simp only [GFactor.compMess, List.finRange_succ_eq_map, List.finRange_zero,
      List.map_cons, List.map_nil]
    rw [compMessAt_zeroLam QOps (GFactor.linearize QOps facZ cfcZ true) cfcZ
      [mgZero] [mgPrev] [0] 0 hsch1]
    rfl
  · intro h
    have hm := congrArg MGauss.mean h
    simp [mgPrev] at hm

/-- **C5** fails in the code: `Factor.comp_mess` reads only batch element 0
of the factor potential, the incoming messages and the linearization point
(the `[0]` indexing), so on a batch-size-2 instance two inputs that agree on
batch element 0 but differ on batch element 1 produce identical outgoing
messages, where the claim requires the message for batch element 1 to depend
on batch element 1 of the inputs. -/
theorem C5_batch_dim_ignored :
    GFactor.compMess QOps facB2a cfcB2 [mgB2a] [mgB2a] [0] =
      GFactor.compMess QOps facB2b cfcB2 [mgB2b] [mgB2b] [0] ∧
    facB2a.potentialEta.length = 2 ∧
    facB2a.linPoint ≠ facB2b.linPoint ∧
    mgB2a.mean ≠ mgB2b.mean := by
  have hretr : ∀ (m : Fin 1 → ℚ) (l : Matrix (Fin 1) (Fin 1) ℚ) (a : ℚ),
      retractGaussian QOps [m] [l] [0, a] = retractGaussian QOps [m] [l] [0] := by
    intro m l a
    simp [retractGaussian]
  refine ⟨?_, rfl, ?_, ?_⟩
  · simp only [GFactor.compMess, List.finRange_succ_eq_map, List.finRange_zero,
      List.map_cons, List.map_nil]
    refine congrArg (fun z => [z]) ?_
    have h1 : schurOutLam QOps facB2a [mgB2a] (0 : Fin 1) =
        schurOutLam QOps facB2b [mgB2b] (0 : Fin 1) := by
      simp [schurOutLam, factorProduct0, msgProduct, facB2a, facB2b,
        List.finRange_succ_eq_map, List.finRange_zero]
    have h2 : schurOutEta QOps facB2a [mgB2a] (0 : Fin 1) =
        schurOutEta QOps facB2b [mgB2b] (0 : Fin 1) := by
      simp [schurOutEta, factorProduct0, msgProduct, facB2a, facB2b,
        List.finRange_succ_eq_map, List.finRange_zero]
    have h3 : (localGaussian QOps (([mgB2a] : List (MGauss ℚ 1)).getD 0 ⟨[], []⟩)
          (facB2a.linPoint.getD 0 []) true).1.headD (fun _ => 0) =
        (localGaussian QOps (([mgB2b] : List (MGauss ℚ 1)).getD 0 ⟨[], []⟩)
          (facB2b.linPoint.getD 0 []) true).1.headD (fun _ => 0) := by
      simp [localGaussian, mgB2a, mgB2b, facB2a, facB2b]
    have hla : facB2a.linPoint.getD 0 [] = [0, 30] := rfl
    have hlb : facB2b.linPoint.getD 0 [] = [0, 60] := rfl
    simp only [compMessAt, Fin.val_zero]
    rw [h1, h2, h3, hla, hlb, hretr _ _ 30, hretr _ _ 60]
  · intro h
    simp [facB2a, facB2b] at h
  · intro h
    simp [mgB2a, mgB2b] at h
